import Mathlib

/-!
Verification of the connectivity-grouping and coordinate-rendering engine of
switchTopology.py.  The Python source is shallowly embedded: Python sets are
modelled as duplicate-free lists of strings, Python dicts as association
lists in insertion order, and the stable sorts of Python are modelled by a
stable insertion sort.  All definitions are executable.
-/

namespace SwitchTopology

/-- Runtime configuration of the program: the dynamically loaded grid
prefixes (GRID_PREFIXES, each a one-letter string) and the declared
end-to-end terminal names (E2E_PINS). -/
structure Config where
  gridPrefixes : List String
  e2ePins : List String
deriving DecidableEq, Repr

/-- The fixed ANSI color palette COLORS of switchTopology.py. -/
def COLORS : List String :=
  ["\x1b[41m", "\x1b[42m", "\x1b[44m", "\x1b[45m", "\x1b[46m",
   "\x1b[48;5;208m", "\x1b[48;5;52m", "\x1b[48;5;22m", "\x1b[48;5;129m",
   "\x1b[48;5;177m", "\x1b[48;5;19m", "\x1b[48;5;28m", "\x1b[48;5;135m",
   "\x1b[48;5;202m", "\x1b[48;5;36m"]

/-- The RESET attribute code. -/
def RESET : String := "\x1b[0m"

/-- The bold-italic marker used for state-active pins. -/
def TEXT_BOLD_ITALIC_STATE : String := "\x1b[1m\x1b[3m"

/-- The closing marker inserted after a colored cell. -/
def PIN_TERMINATOR : String := "\x1b[22m\x1b[23m\x1b[49m"

/-- The neutral background color. -/
def NEUTRAL_BACKGROUND : String := "\x1b[40m"

/-- Decide whether a character is an ASCII uppercase letter. -/
def isUpperChar (c : Char) : Bool := decide ('A' ≤ c) && decide (c ≤ 'Z')

/-- Decide whether a character is an ASCII lowercase letter. -/
def isLowerChar (c : Char) : Bool := decide ('a' ≤ c) && decide (c ≤ 'z')

/-- Decide whether a character is an ASCII letter. -/
def isAlphaChar (c : Char) : Bool := isUpperChar c || isLowerChar c

/-- Decide whether a character is an ASCII digit. -/
def isDigitChar (c : Char) : Bool := decide ('0' ≤ c) && decide (c ≤ '9')

/-- Decide whether a character is whitespace, as stripped by str.strip(). -/
def isSpaceChar (c : Char) : Bool :=
  c = ' ' || c = '\t' || c = '\n' || c = '\x0d' || c = '\x0b' || c = '\x0c'

/-- Strip leading and trailing whitespace from a character list. -/
def trimChars (l : List Char) : List Char :=
  ((l.dropWhile isSpaceChar).reverse.dropWhile isSpaceChar).reverse

/-- The model of the Python str.strip() method. -/
def pstrip (s : String) : String := ⟨trimChars s.data⟩

/-- Lowercase an ASCII character, as str.lower() does. -/
def lowerChar (c : Char) : Char :=
  if isUpperChar c then Char.ofNat (c.toNat + 32) else c

/-- Uppercase an ASCII character, as str.upper() does. -/
def upperChar (c : Char) : Char :=
  if isLowerChar c then Char.ofNat (c.toNat - 32) else c

/-- The model of str.lower(). -/
def plower (s : String) : String := ⟨s.data.map lowerChar⟩

/-- The model of str.upper(). -/
def pupper (s : String) : String := ⟨s.data.map upperChar⟩

/-- Value of a run of ASCII digit characters, as Python int() computes it. -/
def digitsVal (l : List Char) : Nat :=
  l.foldl (fun acc c => acc * 10 + (c.toNat - 48)) 0

/-- Match the regular expression fragment d+[xX]d+ used by the grid
definition pattern, with the first digit run taken greedily. -/
def digitsXDigits (l : List Char) : Bool :=
  let ds := l.takeWhile isDigitChar
  let rest := l.dropWhile isDigitChar
  !ds.isEmpty &&
    (match rest with
     | c :: ds2 => (c = 'x' || c = 'X') && !ds2.isEmpty && ds2.all isDigitChar
     | [] => false)

/-- Model of is_grid_definition: the item, stripped, matches the
case-insensitive pattern letter, colon, digits, x, digits. -/
def is_grid_definition (item : String) : Bool :=
  match trimChars item.data with
  | c :: ':' :: rest => isAlphaChar c && digitsXDigits rest
  | _ => false

/-- Model of is_e2e_pin_definition: the stripped, lowercased item starts
with the marker text for an e2epins configuration line. -/
def is_e2e_pin_definition (item : String) : Bool :=
  "e2epins:".data.isPrefixOf ((trimChars item.data).map lowerChar)

/-- Model of is_pin: the item matches one uppercase letter followed by one
or more digits, and if any grid prefixes are configured the letter must be
one of them. -/
def is_pin (cfg : Config) (item : String) : Bool :=
  match item.data with
  | c :: ds =>
      isUpperChar c && !ds.isEmpty && ds.all isDigitChar &&
        (cfg.gridPrefixes.isEmpty || cfg.gridPrefixes.any (fun p => p = (⟨[c]⟩ : String)))
  | [] => false

/-- Model of is_p_element: the item matches letter P, one digit and a sign,
and is not itself one of the declared E2E pins. -/
def is_p_element (cfg : Config) (item : String) : Bool :=
  (match item.data with
   | ['P', d, s] => isDigitChar d && (s = '+' || s = '-')
   | _ => false) && !cfg.e2ePins.any (fun p => p = item)

/-- Model of is_external_element: a P-element or a declared E2E pin. -/
def is_external_element (cfg : Config) (item : String) : Bool :=
  is_p_element cfg item || cfg.e2ePins.any (fun p => p = item)

/-! ### A stable insertion sort, modelling the stable sorts of Python -/

/-- Insert an element into a list so that it lands before the first element
it compares le-below, preserving the relative order of ties. -/
def insertSorted (le : α → α → Bool) (x : α) : List α → List α
  | [] => [x]
  | y :: ys => if le x y then x :: y :: ys else y :: insertSorted le x ys

/-- Stable sort by the boolean relation le, the model of sorted(...) in
Python with a key function. -/
def sortBy (le : α → α → Bool) : List α → List α
  | [] => []
  | x :: xs => insertSorted le x (sortBy le xs)

theorem insertSorted_perm (le : α → α → Bool) (x : α) (l : List α) :
    (insertSorted le x l).Perm (x :: l) := by
  induction l with
  | nil => simp [insertSorted]
  | cons y ys ih =>
    simp only [insertSorted]
    by_cases h : le x y = true
    · simp [h]
    · simp only [h, if_false]
      exact (ih.cons y).trans (List.Perm.swap x y ys)

theorem sortBy_perm (le : α → α → Bool) (l : List α) :
    (sortBy le l).Perm l := by
  induction l with
  | nil => simp [sortBy]
  | cons x xs ih =>
    exact (insertSorted_perm le x (sortBy le xs)).trans (ih.cons x)

theorem mem_sortBy {le : α → α → Bool} {l : List α} {x : α} :
    x ∈ sortBy le l ↔ x ∈ l := (sortBy_perm le l).mem_iff

theorem sortBy_nodup {le : α → α → Bool} {l : List α} (h : l.Nodup) :
    (sortBy le l).Nodup := ((sortBy_perm le l).nodup_iff).mpr h

theorem insertSorted_pairwise {le : α → α → Bool}
    (htot : ∀ a b, le a b = true ∨ le b a = true)
    (htrans : ∀ a b c, le a b = true → le b c = true → le a c = true)
    {x : α} {l : List α} (h : l.Pairwise (fun a b => le a b = true)) :
    (insertSorted le x l).Pairwise (fun a b => le a b = true) := by
  induction l with
  | nil => simp [insertSorted]
  | cons y ys ih =>
    simp only [insertSorted]
    rcases List.pairwise_cons.mp h with ⟨hy, hys⟩
    by_cases hxy : le x y = true
    · rw [if_pos hxy]
      refine List.pairwise_cons.mpr ⟨?_, h⟩
      intro b hb
      rcases hb with _ | hb
      · exact hxy
      · exact htrans _ _ _ hxy (hy _ (by assumption))
    · rw [if_neg hxy]
      refine List.pairwise_cons.mpr ⟨?_, ih hys⟩
      intro b hb
      rcases List.mem_cons.mp ((insertSorted_perm le x ys).mem_iff.mp hb) with h1 | h1
      · subst h1
        rcases htot b y with h2 | h2
        · exact absurd h2 hxy
        · exact h2
      · exact hy _ h1

theorem sortBy_pairwise {le : α → α → Bool}
    (htot : ∀ a b, le a b = true ∨ le b a = true)
    (htrans : ∀ a b c, le a b = true → le b c = true → le a c = true)
    (l : List α) : (sortBy le l).Pairwise (fun a b => le a b = true) := by
  induction l with
  | nil => simp [sortBy]
  | cons x xs ih => exact insertSorted_pairwise htot htrans ih

theorem insertSorted_of_le {le : α → α → Bool} {x : α} {l : List α}
    (h : ∀ b ∈ l, le x b = true) : insertSorted le x l = x :: l := by
  cases l with
  | nil => rfl
  | cons y ys => simp [insertSorted, h y (List.mem_cons_self y ys)]

theorem sortBy_of_pairwise {le : α → α → Bool} {l : List α}
    (h : l.Pairwise (fun a b => le a b = true)) : sortBy le l = l := by
  induction l with
  | nil => rfl
  | cons x xs ih =>
    rcases List.pairwise_cons.mp h with ⟨hx, hxs⟩
    simp only [sortBy, ih hxs]
    exact insertSorted_of_le hx

/-! ### Sets as duplicate-free lists, dicts as association lists -/

/-- Boolean membership in a list of strings. -/
def memB (l : List String) (x : String) : Bool := l.any (fun y => y = x)

theorem memB_iff {l : List String} {x : String} : memB l x = true ↔ x ∈ l := by
  simp [memB]

/-- Remove duplicates keeping the first occurrence, the model of building a
Python set from a list. -/
def dedupAux (seen : List String) : List String → List String
  | [] => []
  | x :: xs => if memB seen x then dedupAux seen xs else x :: dedupAux (x :: seen) xs

/-- The model of set(g) for a list g. -/
def dedupList (l : List String) : List String := dedupAux [] l

theorem mem_dedupAux {seen l x} :
    x ∈ dedupAux seen l ↔ x ∈ l ∧ x ∉ seen := by
  induction l generalizing seen with
  | nil => simp [dedupAux]
  | cons y ys ih =>
    simp only [dedupAux]
    by_cases h : memB seen y = true
    · rw [if_pos h, ih]
      constructor
      · rintro ⟨h1, h2⟩; exact ⟨.tail _ h1, h2⟩
      · rintro ⟨h1, h2⟩
        rcases List.mem_cons.mp h1 with rfl | h1
        · exact absurd (memB_iff.mp h) h2
        · exact ⟨h1, h2⟩
    · rw [if_neg h]
      simp only [List.mem_cons, ih, List.mem_cons]
      constructor
      · rintro (rfl | ⟨h1, h2⟩)
        · exact ⟨Or.inl rfl, fun hx => h (memB_iff.mpr hx)⟩
        · exact ⟨Or.inr h1, fun hx => h2 (Or.inr hx)⟩
      · rintro ⟨rfl | h1, h2⟩
        · exact Or.inl rfl
        · by_cases hxy : x = y
          · exact Or.inl hxy
          · exact Or.inr ⟨h1, fun hx => (by rcases hx with rfl | hx; exact hxy rfl; exact h2 hx)⟩

theorem mem_dedupList {l x} : x ∈ dedupList l ↔ x ∈ l := by
  simp [dedupList, mem_dedupAux]

theorem dedupAux_nodup (seen l) : (dedupAux seen l).Nodup := by
  induction l generalizing seen with
  | nil => simp [dedupAux]
  | cons y ys ih =>
    simp only [dedupAux]
    by_cases h : memB seen y = true
    · rw [if_pos h]; exact ih seen
    · rw [if_neg h]
      refine List.nodup_cons.mpr ⟨fun hy => ?_, ih (y :: seen)⟩
      exact (mem_dedupAux.mp hy).2 (List.mem_cons_self _ _)

theorem dedupList_nodup (l) : (dedupList l).Nodup := dedupAux_nodup [] l

theorem dedupAux_of_nodup {seen l} (h : l.Nodup) (hd : ∀ x ∈ l, x ∉ seen) :
    dedupAux seen l = l := by
  induction l generalizing seen with
  | nil => rfl
  | cons y ys ih =>
    rcases List.nodup_cons.mp h with ⟨hy, hys⟩
    have hseen : memB seen y = false := by
      rw [Bool.eq_false_iff]
      intro hc
      exact hd y (List.mem_cons_self _ _) (memB_iff.mp hc)
    simp only [dedupAux, hseen, Bool.false_eq_true, if_false]
    rw [ih hys]
    intro x hx hc
    rcases List.mem_cons.mp hc with rfl | hc
    · exact hy hx
    · exact hd x (.tail _ hx) hc

theorem dedupList_of_nodup {l} (h : l.Nodup) : dedupList l = l :=
  dedupAux_of_nodup h (by simp)

theorem dedupList_ne_nil {l : List String} (h : l ≠ []) : dedupList l ≠ [] := by
  cases l with
  | nil => exact absurd rfl h
  | cons x xs =>
    intro hc
    have : x ∈ dedupList (x :: xs) := mem_dedupList.mpr (List.mem_cons_self _ _)
    rw [hc] at this
    exact List.not_mem_nil x this

/-- Lookup in an association list, first match wins. -/
def alookup [DecidableEq α] : List (α × β) → α → Option β
  | [], _ => none
  | (k, v) :: rest, k2 => if k2 = k then some v else alookup rest k2

theorem mem_of_alookup [DecidableEq α] {m : List (α × β)} {k : α} {v : β}
    (h : alookup m k = some v) : (k, v) ∈ m := by
  induction m with
  | nil => simp [alookup] at h
  | cons p rest ih =>
    rcases p with ⟨k2, v2⟩
    simp only [alookup] at h
    by_cases hk : k = k2
    · rw [if_pos hk] at h
      cases h
      subst hk
      exact List.mem_cons_self _ _
    · rw [if_neg hk] at h
      exact .tail _ (ih h)

theorem alookup_append [DecidableEq α] (m1 m2 : List (α × β)) (k : α) :
    alookup (m1 ++ m2) k = (alookup m1 k).or (alookup m2 k) := by
  induction m1 with
  | nil => simp [alookup]
  | cons p rest ih =>
    rcases p with ⟨k2, v2⟩
    simp only [List.cons_append, alookup]
    by_cases hk : k = k2
    · simp [hk]
    · simp [hk, ih]

/-! ### The group reducer: reduce_connection_groups -/

/-- Truthiness of the set intersection current_group.intersection(other) in
the merge loop. -/
def overlapB (a b : List String) : Bool := a.any (fun x => memB b x)

/-- Model of current_group.update(other): set union keeping the elements of
the first operand first. -/
def unionL (a b : List String) : List String := a ++ b.filter (fun x => !memB a x)

theorem overlapB_iff {a b : List String} :
    overlapB a b = true ↔ ∃ x, x ∈ a ∧ x ∈ b := by
  simp [overlapB, memB]

theorem mem_unionL {a b : List String} {x : String} :
    x ∈ unionL a b ↔ x ∈ a ∨ x ∈ b := by
  simp only [unionL, List.mem_append, List.mem_filter, Bool.not_eq_true]
  constructor
  · rintro (h | ⟨h, _⟩)
    · exact Or.inl h
    · exact Or.inr h
  · rintro (h | h)
    · exact Or.inl h
    · by_cases hx : x ∈ a
      · exact Or.inl hx
      · refine Or.inr ⟨h, ?_⟩
        cases hmb : memB a x with
        | false => rfl
        | true => exact absurd (memB_iff.mp hmb) hx

theorem unionL_nodup {a b : List String} (ha : a.Nodup) (hb : b.Nodup) :
    (unionL a b).Nodup := by
  refine List.Nodup.append ha (List.Nodup.filter _ hb) ?_
  intro x hxa hxb
  rcases List.mem_filter.mp hxb with ⟨_, hx⟩
  rw [memB_iff.mpr hxa] at hx
  simp at hx

/-- The inner while loop of reduce_connection_groups: cur is the current
accumulator group, pre the groups already scanned without overlap, post the
groups still to scan.  On overlap, the scanned group is absorbed and the
scan restarts from the beginning of the remaining list (i = 0).  The fuel
argument makes the recursion structural; reduce_terminates shows the fuel
supplied below never runs out. -/
def absorbGo : Nat → List String → List (List String) → List (List String) →
    List String × List (List String)
  | _, cur, pre, [] => (cur, pre)
  | 0, cur, pre, post => (cur, pre ++ post)
  | n + 1, cur, pre, g :: post =>
      if overlapB cur g then absorbGo n (unionL cur g) [] (pre ++ post)
      else absorbGo n cur (pre ++ [g]) post

/-- Fuel that always suffices for the inner scan over k groups. -/
def absorbFuel (k : Nat) : Nat := k + k * k

/-- The outer while loop of reduce_connection_groups, with fuel equal to
the number of working groups (the working list shrinks by at least one
group per iteration). -/
def mergeLoopGo : Nat → List (List String) → List (List String)
  | _, [] => []
  | 0, ws => ws
  | n + 1, g :: ws =>
      let r := absorbGo (absorbFuel ws.length) g [] ws
      r.1 :: mergeLoopGo n r.2

/-- The merging phase of reduce_connection_groups on a working list of
groups-as-sets. -/
def mergeLoop (ws : List (List String)) : List (List String) :=
  mergeLoopGo ws.length ws

/-- Lexicographic comparison of character lists by code point, the model of
Python string comparison. -/
def charListLe : List Char → List Char → Bool
  | [], _ => true
  | _ :: _, [] => false
  | a :: as, b :: bs =>
      if a.toNat < b.toNat then true
      else if a.toNat = b.toNat then charListLe as bs
      else false

/-- String comparison, the model of Python str ordering. -/
def strLe (a b : String) : Bool := charListLe a.data b.data

/-- Case-insensitive comparison via str.upper(), the key used when sorting
the external members of a group. -/
def upperLe (a b : String) : Bool := strLe (pupper a) (pupper b)

/-- The sort key (x[0], int(x[1:])) used for pins: leading character code
and numeric index. -/
def pinKey (s : String) : Nat × Nat :=
  match s.data with
  | [] => (0, 0)
  | c :: ds => (c.toNat, digitsVal ds)

/-- Comparison of pins by grid letter, then numeric index. -/
def pinLe (a b : String) : Bool :=
  decide ((pinKey a).1 < (pinKey b).1) ||
    (decide ((pinKey a).1 = (pinKey b).1) && decide ((pinKey a).2 ≤ (pinKey b).2))

/-- Predicate for membership in the external list of a canonical group:
not a pin, not a grid definition, not an e2epins definition. -/
def isExternalKept (cfg : Config) (x : String) : Bool :=
  !is_pin cfg x && !is_grid_definition x && !is_e2e_pin_definition x

/-- Canonical ordering of one merged group: external items sorted
case-insensitively first, then pins sorted by grid letter and index,
exactly as the final_reduced_groups loop builds each group. -/
def canonical_order (cfg : Config) (group_set : List String) : List String :=
  let pins := sortBy pinLe (group_set.filter (is_pin cfg))
  let external := sortBy upperLe (group_set.filter (isExternalKept cfg))
  external ++ pins

/-- The sort_key function on final groups: empty groups last, groups with
an E2E pin first, then groups with any external item, then pure pin
groups; tie-break on the first member. -/
def group_sort_key (cfg : Config) (g : List String) : Nat × String :=
  match g with
  | [] => (3, "z")
  | x :: _ =>
      if g.any (fun item => memB cfg.e2ePins item) then (0, x)
      else if g.any (fun item => !is_pin cfg item) then (1, x)
      else (2, x)

/-- Comparison of final groups by sort_key, ties keeping list order. -/
def groupLe (cfg : Config) (g h : List String) : Bool :=
  decide ((group_sort_key cfg g).1 < (group_sort_key cfg h).1) ||
    (decide ((group_sort_key cfg g).1 = (group_sort_key cfg h).1) &&
      strLe (group_sort_key cfg g).2 (group_sort_key cfg h).2)

/-- Model of reduce_connection_groups: drop empty groups, form sets, merge
all transitively overlapping groups, put each merged group in canonical
order and sort the final list by sort_key. -/
def reduce_connection_groups (cfg : Config) (initial_groups : List (List String)) :
    List (List String) :=
  if initial_groups.isEmpty then []
  else
    let working := (initial_groups.filter (fun g => !g.isEmpty)).map dedupList
    let merged := mergeLoop working
    let finals := merged.map (canonical_order cfg)
    sortBy (groupLe cfg) finals

theorem absorbGo_sub (n : Nat) (cur : List String) (pre post : List (List String)) :
    ∀ x ∈ cur, x ∈ (absorbGo n cur pre post).1 := by
  induction n generalizing cur pre post with
  | zero => cases post <;> simp [absorbGo]
  | succ n ih =>
    cases post with
    | nil => simp [absorbGo]
    | cons g post2 =>
      intro x hx
      simp only [absorbGo]
      by_cases h : overlapB cur g = true
      · rw [if_pos h]
        exact ih _ _ _ x (mem_unionL.mpr (Or.inl hx))
      · rw [if_neg h]
        exact ih _ _ _ x hx

theorem absorbGo_mem (n : Nat) (cur : List String) (pre post : List (List String))
    (x : String) :
    (x ∈ (absorbGo n cur pre post).1 ∨ ∃ r ∈ (absorbGo n cur pre post).2, x ∈ r) ↔
      (x ∈ cur ∨ ∃ p ∈ pre ++ post, x ∈ p) := by
  induction n generalizing cur pre post with
  | zero => cases post <;> simp [absorbGo]
  | succ n ih =>
    cases post with
    | nil => simp [absorbGo]
    | cons g post2 =>
      simp only [absorbGo]
      by_cases h : overlapB cur g = true
      · rw [if_pos h, ih]
        simp only [List.nil_append, mem_unionL, List.mem_append, List.mem_cons]
        constructor
        · rintro (⟨hc | hc⟩ | ⟨p, hp, hxp⟩)
          · exact Or.inl hc
          · exact Or.inr ⟨g, Or.inr (Or.inl rfl), hc⟩
          · rcases hp with hp | hp
            · exact Or.inr ⟨p, Or.inl hp, hxp⟩
            · exact Or.inr ⟨p, Or.inr (Or.inr hp), hxp⟩
        · rintro (hc | ⟨p, hp, hxp⟩)
          · exact Or.inl (Or.inl hc)
          · rcases hp with hp | hp | hp
            · exact Or.inr ⟨p, Or.inl hp, hxp⟩
            · subst hp
              exact Or.inl (Or.inr hxp)
            · exact Or.inr ⟨p, Or.inr hp, hxp⟩
      · rw [if_neg h, ih, List.append_assoc, List.singleton_append]

theorem absorbGo_snd_mem (n : Nat) (cur : List String) (pre post : List (List String)) :
    ∀ r ∈ (absorbGo n cur pre post).2, r ∈ pre ++ post := by
  induction n generalizing cur pre post with
  | zero => cases post <;> simp [absorbGo]
  | succ n ih =>
    cases post with
    | nil => simp [absorbGo]
    | cons g post2 =>
      intro r hr
      simp only [absorbGo] at hr
      by_cases h : overlapB cur g = true
      · rw [if_pos h] at hr
        have := ih _ _ _ r hr
        simp only [List.nil_append, List.mem_append] at this
        rcases this with h1 | h1
        · exact List.mem_append.mpr (Or.inl h1)
        · exact List.mem_append.mpr (Or.inr (.tail _ h1))
      · rw [if_neg h] at hr
        have := ih _ _ _ r hr
        simp only [List.mem_append, List.mem_singleton, List.mem_cons] at this ⊢
        tauto

theorem absorbGo_len (n : Nat) (cur : List String) (pre post : List (List String)) :
    (absorbGo n cur pre post).2.length ≤ pre.length + post.length := by
  induction n generalizing cur pre post with
  | zero => cases post <;> simp [absorbGo]
  | succ n ih =>
    cases post with
    | nil => simp [absorbGo]
    | cons g post2 =>
      simp only [absorbGo]
      by_cases h : overlapB cur g = true
      · rw [if_pos h]
        have := ih (unionL cur g) [] (pre ++ post2)
        simp only [List.length_nil, List.length_append, List.length_cons] at this ⊢
        omega
      · rw [if_neg h]
        have := ih cur (pre ++ [g]) post2
        simp only [List.length_nil, List.length_append, List.length_cons] at this ⊢
        omega

theorem absorbGo_groups (n : Nat) (cur : List String) (pre post : List (List String)) :
    ∀ g2 ∈ pre ++ post, (∀ x ∈ g2, x ∈ (absorbGo n cur pre post).1) ∨
      g2 ∈ (absorbGo n cur pre post).2 := by
  induction n generalizing cur pre post with
  | zero =>
    cases post with
    | nil => simp only [absorbGo, List.append_nil]; tauto
    | cons g post2 => simp only [absorbGo]; tauto
  | succ n ih =>
    cases post with
    | nil => simp only [absorbGo, List.append_nil]; tauto
    | cons g post2 =>
      intro g2 hg2
      simp only [absorbGo]
      by_cases h : overlapB cur g = true
      · rw [if_pos h]
        rcases List.mem_append.mp hg2 with h1 | h1
        · exact ih _ _ _ g2 (by simp [h1])
        · rcases List.mem_cons.mp h1 with rfl | h1
          · exact Or.inl fun x hx =>
              absorbGo_sub _ _ _ _ x (mem_unionL.mpr (Or.inr hx))
          · exact ih _ _ _ g2 (by simp [h1])
      · rw [if_neg h]
        refine ih _ _ _ g2 ?_
        simp only [List.mem_append, List.mem_singleton, List.mem_cons] at hg2 ⊢
        tauto

theorem absorbGo_nodup (n : Nat) (cur : List String) (pre post : List (List String))
    (hc : cur.Nodup) (hg : ∀ g ∈ pre ++ post, g.Nodup) :
    (absorbGo n cur pre post).1.Nodup := by
  induction n generalizing cur pre post with
  | zero => cases post <;> simpa [absorbGo]
  | succ n ih =>
    cases post with
    | nil => simpa [absorbGo]
    | cons g post2 =>
      simp only [absorbGo]
      by_cases h : overlapB cur g = true
      · rw [if_pos h]
        refine ih _ _ _
          (unionL_nodup hc (hg g (List.mem_append.mpr (Or.inr (List.mem_cons_self _ _))))) ?_
        intro g2 hg2
        simp only [List.nil_append, List.mem_append] at hg2
        rcases hg2 with h1 | h1
        · exact hg g2 (List.mem_append.mpr (Or.inl h1))
        · exact hg g2 (List.mem_append.mpr (Or.inr (.tail _ h1)))
      · rw [if_neg h]
        refine ih _ _ _ hc ?_
        intro g2 hg2
        refine hg g2 ?_
        simp only [List.mem_append, List.mem_singleton, List.mem_cons] at hg2 ⊢
        tauto

theorem arith_fuel_step (t q n : Nat)
    (h : q + 1 + (t + 1) * (t + 1) ≤ n + 1) :
    q + (t + 1) * (t + 1) ≤ n ∧ t + t * t ≤ n := by
  have he : (t + 1) * (t + 1) = t * t + 2 * t + 1 := by ring
  omega

theorem absorbGo_disj (n : Nat) (cur : List String) (pre post : List (List String))
    (hpre : ∀ p ∈ pre, ∀ x ∈ p, x ∉ cur)
    (hn : post.length + (pre.length + post.length) * (pre.length + post.length) ≤ n) :
    ∀ r ∈ (absorbGo n cur pre post).2, ∀ x ∈ r, x ∉ (absorbGo n cur pre post).1 := by
  induction n generalizing cur pre post with
  | zero =>
    have hpost : post = [] := by
      cases post with
      | nil => rfl
      | cons g post2 => simp at hn
    subst hpost
    simpa [absorbGo] using hpre
  | succ n ih =>
    cases post with
    | nil => simpa [absorbGo] using hpre
    | cons g post2 =>
      simp only [List.length_cons] at hn
      have ht : pre.length + (post2.length + 1) = pre.length + post2.length + 1 := by
        omega
      rw [ht] at hn
      rcases arith_fuel_step (pre.length + post2.length) post2.length n hn with ⟨h1, h2⟩
      simp only [absorbGo]
      by_cases h : overlapB cur g = true
      · rw [if_pos h]
        refine ih _ _ _ (by simp) ?_
        simpa using h2
      · rw [if_neg h]
        refine ih _ _ _ ?_ ?_
        · intro p hp x hx
          rcases List.mem_append.mp hp with h3 | h3
          · exact hpre p h3 x hx
          · rcases List.mem_singleton.mp h3 with rfl
            intro hxc
            exact h (overlapB_iff.mpr ⟨x, hxc, hx⟩)
        · simp only [List.length_append, List.length_singleton]
          have : pre.length + 1 + post2.length = pre.length + post2.length + 1 := by
            omega
          rw [this]
          exact h1

theorem absorbGo_disjoint_id (n : Nat) (cur : List String)
    (pre post : List (List String)) (h : ∀ g ∈ post, overlapB cur g = false) :
    absorbGo n cur pre post = (cur, pre ++ post) := by
  induction n generalizing cur pre post with
  | zero => cases post <;> simp [absorbGo]
  | succ n ih =>
    cases post with
    | nil => simp [absorbGo]
    | cons g post2 =>
      simp only [absorbGo]
      rw [if_neg (by simp [h g (List.mem_cons_self _ _)]), ih]
      · simp
      · exact fun g2 hg2 => h g2 (.tail _ hg2)

theorem absorbFuel_spec (pre post : List (List String)) (hpre : pre = []) :
    post.length + (pre.length + post.length) * (pre.length + post.length) ≤
      absorbFuel post.length := by
  subst hpre
  simp [absorbFuel]

theorem mergeLoopGo_mem (n : Nat) (ws : List (List String)) (hn : ws.length ≤ n)
    (x : String) :
    (∃ G ∈ mergeLoopGo n ws, x ∈ G) ↔ ∃ g ∈ ws, x ∈ g := by
  induction n generalizing ws with
  | zero =>
    have hws : ws = [] := List.length_eq_zero.mp (Nat.le_zero.mp hn)
    subst hws
    simp [mergeLoopGo]
  | succ n ih =>
    cases ws with
    | nil => simp [mergeLoopGo]
    | cons g ws2 =>
      simp only [mergeLoopGo]
      have hlen : (absorbGo (absorbFuel ws2.length) g [] ws2).2.length ≤ n := by
        have := absorbGo_len (absorbFuel ws2.length) g [] ws2
        simp only [List.length_nil, List.length_cons] at this hn
        omega
      rw [List.exists_mem_cons_iff, List.exists_mem_cons_iff, ih _ hlen]
      have hmem := absorbGo_mem (absorbFuel ws2.length) g [] ws2 x
      simpa using hmem

theorem mergeLoopGo_cover (n : Nat) (ws : List (List String)) (hn : ws.length ≤ n) :
    ∀ g ∈ ws, ∃ G ∈ mergeLoopGo n ws, ∀ x ∈ g, x ∈ G := by
  induction n generalizing ws with
  | zero =>
    have hws : ws = [] := List.length_eq_zero.mp (Nat.le_zero.mp hn)
    subst hws
    simp
  | succ n ih =>
    cases ws with
    | nil => simp
    | cons g0 ws2 =>
      have hlen : (absorbGo (absorbFuel ws2.length) g0 [] ws2).2.length ≤ n := by
        have := absorbGo_len (absorbFuel ws2.length) g0 [] ws2
        simp only [List.length_nil, List.length_cons] at this hn
        omega
      intro g hg
      simp only [mergeLoopGo]
      rcases List.mem_cons.mp hg with rfl | hg2
      · exact ⟨_, List.mem_cons_self _ _, absorbGo_sub _ _ _ _⟩
      · rcases absorbGo_groups (absorbFuel ws2.length) g0 [] ws2 g (by simpa using hg2)
          with h1 | h1
        · exact ⟨_, List.mem_cons_self _ _, h1⟩
        · rcases ih _ hlen g h1 with ⟨G, hG, hsub⟩
          exact ⟨G, .tail _ hG, hsub⟩

theorem mergeLoopGo_disj (n : Nat) (ws : List (List String)) (hn : ws.length ≤ n) :
    (mergeLoopGo n ws).Pairwise (fun G H => ∀ x, x ∈ G → x ∉ H) := by
  induction n generalizing ws with
  | zero =>
    have hws : ws = [] := List.length_eq_zero.mp (Nat.le_zero.mp hn)
    subst hws
    simp [mergeLoopGo]
  | succ n ih =>
    cases ws with
    | nil => simp [mergeLoopGo]
    | cons g0 ws2 =>
      have hlen : (absorbGo (absorbFuel ws2.length) g0 [] ws2).2.length ≤ n := by
        have := absorbGo_len (absorbFuel ws2.length) g0 [] ws2
        simp only [List.length_nil, List.length_cons] at this hn
        omega
      simp only [mergeLoopGo]
      refine List.pairwise_cons.mpr ⟨?_, ih _ hlen⟩
      intro H hH x hx1 hx2
      have : ∃ r ∈ (absorbGo (absorbFuel ws2.length) g0 [] ws2).2, x ∈ r := by
        refine (mergeLoopGo_mem n _ hlen x).mp ⟨H, hH, hx2⟩
      rcases this with ⟨r, hr, hxr⟩
      exact absorbGo_disj (absorbFuel ws2.length) g0 [] ws2 (by simp)
        (absorbFuel_spec [] ws2 rfl) r hr x hxr hx1

theorem mergeLoopGo_nodup (n : Nat) (ws : List (List String)) (hn : ws.length ≤ n)
    (hg : ∀ g ∈ ws, g.Nodup) : ∀ G ∈ mergeLoopGo n ws, G.Nodup := by
  induction n generalizing ws with
  | zero =>
    have hws : ws = [] := List.length_eq_zero.mp (Nat.le_zero.mp hn)
    subst hws
    simp [mergeLoopGo]
  | succ n ih =>
    cases ws with
    | nil => simp [mergeLoopGo]
    | cons g0 ws2 =>
      have hlen : (absorbGo (absorbFuel ws2.length) g0 [] ws2).2.length ≤ n := by
        have := absorbGo_len (absorbFuel ws2.length) g0 [] ws2
        simp only [List.length_nil, List.length_cons] at this hn
        omega
      intro G hG
      simp only [mergeLoopGo] at hG
      rcases List.mem_cons.mp hG with rfl | hG2
      · exact absorbGo_nodup _ _ _ _ (hg g0 (List.mem_cons_self _ _))
          (fun g2 hg2 => hg g2 (by simpa using List.mem_cons.mpr (Or.inr (by simpa using hg2))))
      · refine ih _ hlen ?_ G hG2
        intro g2 hg2
        have := absorbGo_snd_mem (absorbFuel ws2.length) g0 [] ws2 g2 hg2
        exact hg g2 (List.mem_cons.mpr (Or.inr (by simpa using this)))

theorem mergeLoopGo_ne (n : Nat) (ws : List (List String)) (hn : ws.length ≤ n)
    (hg : ∀ g ∈ ws, g ≠ []) : ∀ G ∈ mergeLoopGo n ws, G ≠ [] := by
  induction n generalizing ws with
  | zero =>
    have hws : ws = [] := List.length_eq_zero.mp (Nat.le_zero.mp hn)
    subst hws
    simp [mergeLoopGo]
  | succ n ih =>
    cases ws with
    | nil => simp [mergeLoopGo]
    | cons g0 ws2 =>
      have hlen : (absorbGo (absorbFuel ws2.length) g0 [] ws2).2.length ≤ n := by
        have := absorbGo_len (absorbFuel ws2.length) g0 [] ws2
        simp only [List.length_nil, List.length_cons] at this hn
        omega
      intro G hG
      simp only [mergeLoopGo] at hG
      rcases List.mem_cons.mp hG with rfl | hG2
      · rcases List.exists_mem_of_ne_nil _ (hg g0 (List.mem_cons_self _ _)) with ⟨y, hy⟩
        intro hc
        have := absorbGo_sub (absorbFuel ws2.length) g0 [] ws2 y hy
        rw [hc] at this
        exact List.not_mem_nil y this
      · refine ih _ hlen ?_ G hG2
        intro g2 hg2
        have := absorbGo_snd_mem (absorbFuel ws2.length) g0 [] ws2 g2 hg2
        exact hg g2 (List.mem_cons.mpr (Or.inr (by simpa using this)))

theorem mergeLoopGo_id (n : Nat) (ws : List (List String)) (hn : ws.length ≤ n)
    (h : ws.Pairwise (fun g h => ∀ x, x ∈ g → x ∉ h)) : mergeLoopGo n ws = ws := by
  induction n generalizing ws with
  | zero =>
    have hws : ws = [] := List.length_eq_zero.mp (Nat.le_zero.mp hn)
    subst hws
    rfl
  | succ n ih =>
    cases ws with
    | nil => rfl
    | cons g0 ws2 =>
      rcases List.pairwise_cons.mp h with ⟨h0, h2⟩
      have hid : absorbGo (absorbFuel ws2.length) g0 [] ws2 = (g0, [] ++ ws2) := by
        refine absorbGo_disjoint_id _ _ _ _ ?_
        intro g hg
        rw [Bool.eq_false_iff]
        intro hc
        rcases overlapB_iff.mp hc with ⟨x, hx1, hx2⟩
        exact h0 g hg x hx1 hx2
      simp only [mergeLoopGo, hid]
      simp only [List.nil_append, List.length_cons] at hn ⊢
      rw [ih ws2 (by omega) h2]

theorem mergeLoop_mem (ws : List (List String)) (x : String) :
    (∃ G ∈ mergeLoop ws, x ∈ G) ↔ ∃ g ∈ ws, x ∈ g :=
  mergeLoopGo_mem ws.length ws (le_refl _) x

theorem mergeLoop_cover (ws : List (List String)) :
    ∀ g ∈ ws, ∃ G ∈ mergeLoop ws, ∀ x ∈ g, x ∈ G :=
  mergeLoopGo_cover ws.length ws (le_refl _)

theorem mergeLoop_disj (ws : List (List String)) :
    (mergeLoop ws).Pairwise (fun G H => ∀ x, x ∈ G → x ∉ H) :=
  mergeLoopGo_disj ws.length ws (le_refl _)

theorem mergeLoop_nodup (ws : List (List String)) (hg : ∀ g ∈ ws, g.Nodup) :
    ∀ G ∈ mergeLoop ws, G.Nodup :=
  mergeLoopGo_nodup ws.length ws (le_refl _) hg

theorem mergeLoop_ne (ws : List (List String)) (hg : ∀ g ∈ ws, g ≠ []) :
    ∀ G ∈ mergeLoop ws, G ≠ [] :=
  mergeLoopGo_ne ws.length ws (le_refl _) hg

theorem mergeLoop_id (ws : List (List String))
    (h : ws.Pairwise (fun g h => ∀ x, x ∈ g → x ∉ h)) : mergeLoop ws = ws :=
  mergeLoopGo_id ws.length ws (le_refl _) h

/-! ### Totality and transitivity of the comparison functions -/

theorem charListLe_cons (a b : Char) (as bs : List Char) :
    charListLe (a :: as) (b :: bs) = true ↔
      a.toNat < b.toNat ∨ (a.toNat = b.toNat ∧ charListLe as bs = true) := by
  simp only [charListLe]
  split_ifs with h1 h2
  · simp [h1]
  · simp [h1, h2]
  · simp [h1, h2]

theorem charListLe_total : ∀ (a b : List Char),
    charListLe a b = true ∨ charListLe b a = true
  | [], _ => Or.inl rfl
  | _ :: _, [] => Or.inr rfl
  | a :: as, b :: bs => by
    rw [charListLe_cons, charListLe_cons]
    rcases Nat.lt_trichotomy a.toNat b.toNat with h | h | h
    · exact Or.inl (Or.inl h)
    · rcases charListLe_total as bs with h2 | h2
      · exact Or.inl (Or.inr ⟨h, h2⟩)
      · exact Or.inr (Or.inr ⟨h.symm, h2⟩)
    · exact Or.inr (Or.inl h)

theorem charListLe_trans : ∀ (a b c : List Char), charListLe a b = true →
    charListLe b c = true → charListLe a c = true
  | [], _, _, _, _ => rfl
  | a :: as, [], _, h, _ => by simp [charListLe] at h
  | a :: as, b :: bs, [], _, h => by simp [charListLe] at h
  | a :: as, b :: bs, c :: cs, h1, h2 => by
    rw [charListLe_cons] at h1 h2 ⊢
    rcases h1 with h1 | ⟨h1, h1t⟩ <;> rcases h2 with h2 | ⟨h2, h2t⟩
    · exact Or.inl (by omega)
    · exact Or.inl (by omega)
    · exact Or.inl (by omega)
    · exact Or.inr ⟨by omega, charListLe_trans as bs cs h1t h2t⟩

theorem strLe_total (a b : String) : strLe a b = true ∨ strLe b a = true :=
  charListLe_total a.data b.data

theorem strLe_trans (a b c : String) (h1 : strLe a b = true) (h2 : strLe b c = true) :
    strLe a c = true := charListLe_trans a.data b.data c.data h1 h2

theorem upperLe_total (a b : String) : upperLe a b = true ∨ upperLe b a = true :=
  strLe_total _ _

theorem upperLe_trans (a b c : String) (h1 : upperLe a b = true)
    (h2 : upperLe b c = true) : upperLe a c = true := strLe_trans _ _ _ h1 h2

theorem pinLe_total (a b : String) : pinLe a b = true ∨ pinLe b a = true := by
  simp only [pinLe, Bool.or_eq_true, Bool.and_eq_true, decide_eq_true_eq]
  omega

theorem pinLe_trans (a b c : String) (h1 : pinLe a b = true)
    (h2 : pinLe b c = true) : pinLe a c = true := by
  simp only [pinLe, Bool.or_eq_true, Bool.and_eq_true, decide_eq_true_eq] at h1 h2 ⊢
  omega

theorem groupLe_total (cfg : Config) (g h : List String) :
    groupLe cfg g h = true ∨ groupLe cfg h g = true := by
  simp only [groupLe, Bool.or_eq_true, Bool.and_eq_true, decide_eq_true_eq]
  rcases Nat.lt_trichotomy (group_sort_key cfg g).1 (group_sort_key cfg h).1 with h1 | h1 | h1
  · exact Or.inl (Or.inl h1)
  · rcases strLe_total (group_sort_key cfg g).2 (group_sort_key cfg h).2 with h2 | h2
    · exact Or.inl (Or.inr ⟨h1, h2⟩)
    · exact Or.inr (Or.inr ⟨h1.symm, h2⟩)
  · exact Or.inr (Or.inl h1)

theorem groupLe_trans (cfg : Config) (g h k : List String)
    (h1 : groupLe cfg g h = true) (h2 : groupLe cfg h k = true) :
    groupLe cfg g k = true := by
  simp only [groupLe, Bool.or_eq_true, Bool.and_eq_true, decide_eq_true_eq] at h1 h2 ⊢
  rcases h1 with h1 | ⟨h1, h1s⟩ <;> rcases h2 with h2 | ⟨h2, h2s⟩
  · exact Or.inl (by omega)
  · exact Or.inl (by omega)
  · exact Or.inl (by omega)
  · exact Or.inr ⟨by omega, strLe_trans _ _ _ h1s h2s⟩

/-! ### Properties of canonical_order and reduce_connection_groups -/

theorem mem_canonical_order {cfg : Config} {s : List String} {x : String} :
    x ∈ canonical_order cfg s ↔
      x ∈ s ∧ (is_pin cfg x = true ∨ isExternalKept cfg x = true) := by
  simp only [canonical_order, List.mem_append, mem_sortBy, List.mem_filter]
  tauto

theorem clean_mem_canonical {cfg : Config} {s : List String} {x : String}
    (hc : ∀ y ∈ s, is_grid_definition y = false ∧ is_e2e_pin_definition y = false) :
    x ∈ canonical_order cfg s ↔ x ∈ s := by
  rw [mem_canonical_order]
  constructor
  · exact fun h => h.1
  · intro h
    refine ⟨h, ?_⟩
    by_cases hp : is_pin cfg x = true
    · exact Or.inl hp
    · refine Or.inr ?_
      rw [Bool.not_eq_true] at hp
      simp [isExternalKept, hp, (hc x h).1, (hc x h).2]

theorem canonical_order_nodup {cfg : Config} {s : List String} (h : s.Nodup) :
    (canonical_order cfg s).Nodup := by
  refine List.Nodup.append (sortBy_nodup (h.filter _)) (sortBy_nodup (h.filter _)) ?_
  intro x hx1 hx2
  rcases List.mem_filter.mp (mem_sortBy.mp hx1) with ⟨_, hext⟩
  rcases List.mem_filter.mp (mem_sortBy.mp hx2) with ⟨_, hpin⟩
  simp only [isExternalKept, Bool.and_eq_true, Bool.not_eq_true] at hext
  rw [hpin] at hext
  simp at hext

theorem canonical_order_ne {cfg : Config} {s : List String} (hs : s ≠ [])
    (hc : ∀ y ∈ s, is_grid_definition y = false ∧ is_e2e_pin_definition y = false) :
    canonical_order cfg s ≠ [] := by
  rcases List.exists_mem_of_ne_nil _ hs with ⟨y, hy⟩
  intro hnil
  have : y ∈ canonical_order cfg s := (clean_mem_canonical hc).mpr hy
  rw [hnil] at this
  exact List.not_mem_nil y this

theorem canonical_order_idem (cfg : Config) (s : List String) :
    canonical_order cfg (canonical_order cfg s) = canonical_order cfg s := by
  have hpin_all : ∀ x ∈ sortBy pinLe (s.filter (is_pin cfg)), is_pin cfg x = true :=
    fun x hx => (List.mem_filter.mp (mem_sortBy.mp hx)).2
  have hext_all : ∀ x ∈ sortBy upperLe (s.filter (isExternalKept cfg)),
      isExternalKept cfg x = true :=
    fun x hx => (List.mem_filter.mp (mem_sortBy.mp hx)).2
  have hext_npin : ∀ x ∈ sortBy upperLe (s.filter (isExternalKept cfg)),
      ¬ is_pin cfg x = true := by
    intro x hx
    have := hext_all x hx
    simp only [isExternalKept, Bool.and_eq_true] at this
    rcases this with ⟨⟨h1, _⟩, _⟩
    simp only [Bool.not_eq_true] at h1 ⊢
    simpa using h1
  have hpin_next : ∀ x ∈ sortBy pinLe (s.filter (is_pin cfg)),
      ¬ isExternalKept cfg x = true := by
    intro x hx
    simp [isExternalKept, hpin_all x hx]
  have h1 : (sortBy upperLe (s.filter (isExternalKept cfg)) ++
      sortBy pinLe (s.filter (is_pin cfg))).filter (is_pin cfg) =
      sortBy pinLe (s.filter (is_pin cfg)) := by
    have e1 : (sortBy upperLe (s.filter (isExternalKept cfg))).filter (is_pin cfg)
        = [] := List.filter_eq_nil_iff.mpr hext_npin
    have e2 : (sortBy pinLe (s.filter (is_pin cfg))).filter (is_pin cfg)
        = sortBy pinLe (s.filter (is_pin cfg)) := List.filter_eq_self.mpr hpin_all
    rw [List.filter_append, e1, e2, List.nil_append]
  have h2 : (sortBy upperLe (s.filter (isExternalKept cfg)) ++
      sortBy pinLe (s.filter (is_pin cfg))).filter (isExternalKept cfg) =
      sortBy upperLe (s.filter (isExternalKept cfg)) := by
    have e1 : (sortBy upperLe (s.filter (isExternalKept cfg))).filter
        (isExternalKept cfg) = sortBy upperLe (s.filter (isExternalKept cfg)) :=
      List.filter_eq_self.mpr hext_all
    have e2 : (sortBy pinLe (s.filter (is_pin cfg))).filter (isExternalKept cfg)
        = [] := List.filter_eq_nil_iff.mpr hpin_next
    rw [List.filter_append, e1, e2, List.append_nil]
  conv_lhs => rw [canonical_order, canonical_order]
  conv_rhs => rw [canonical_order]
  rw [h1, h2]
  rw [sortBy_of_pairwise (sortBy_pairwise pinLe_total pinLe_trans _),
    sortBy_of_pairwise (sortBy_pairwise upperLe_total upperLe_trans _)]

/-- Cleanliness hypothesis for reducer inputs: no element of any group is a
grid-definition or e2epins-definition token.  The loader guarantees this
for every group it hands to the reducer. -/
def noConfigTokens (l : List (List String)) : Prop :=
  ∀ g ∈ l, ∀ x ∈ g, is_grid_definition x = false ∧ is_e2e_pin_definition x = false

instance : DecidablePred noConfigTokens := fun _ =>
  List.decidableBAll _ _

theorem exists_mem_perm {l1 l2 : List α} (h : l1.Perm l2) (P : α → Prop) :
    (∃ a ∈ l1, P a) ↔ ∃ a ∈ l2, P a := by
  constructor
  · rintro ⟨a, ha, hp⟩; exact ⟨a, h.mem_iff.mp ha, hp⟩
  · rintro ⟨a, ha, hp⟩; exact ⟨a, h.mem_iff.mpr ha, hp⟩

theorem map_id_of {l : List α} {f : α → α} (h : ∀ a ∈ l, f a = a) : l.map f = l := by
  induction l with
  | nil => rfl
  | cons x xs ih =>
    simp only [List.map_cons, h x (List.mem_cons_self _ _),
      ih fun a ha => h a (.tail _ ha)]

/-- The working list built by reduce_connection_groups from its input. -/
def workingOf (l : List (List String)) : List (List String) :=
  (l.filter (fun g => !g.isEmpty)).map dedupList

theorem mem_workingOf {l : List (List String)} {x : String} :
    (∃ g ∈ workingOf l, x ∈ g) ↔ ∃ g ∈ l, x ∈ g := by
  simp only [workingOf, List.mem_map, List.mem_filter]
  constructor
  · rintro ⟨g, ⟨g0, ⟨hg0, _⟩, rfl⟩, hx⟩
    exact ⟨g0, hg0, mem_dedupList.mp hx⟩
  · rintro ⟨g, hg, hx⟩
    refine ⟨dedupList g, ⟨g, ⟨hg, ?_⟩, rfl⟩, mem_dedupList.mpr hx⟩
    have : g ≠ [] := List.ne_nil_of_mem hx
    simp [List.isEmpty_iff, this]

theorem workingOf_group_mem {l : List (List String)} {g : List String}
    (hg : g ∈ workingOf l) : ∃ g0 ∈ l, g0 ≠ [] ∧ g = dedupList g0 := by
  simp only [workingOf, List.mem_map, List.mem_filter] at hg
  rcases hg with ⟨g0, ⟨hg0, hne⟩, rfl⟩
  refine ⟨g0, hg0, ?_, rfl⟩
  simpa [List.isEmpty_iff] using hne

theorem reduce_eq_of_ne_nil {cfg : Config} {l : List (List String)} (h : l ≠ []) :
    reduce_connection_groups cfg l =
      sortBy (groupLe cfg) ((mergeLoop (workingOf l)).map (canonical_order cfg)) := by
  rw [reduce_connection_groups, if_neg (by simpa [List.isEmpty_iff] using h)]
  rfl

theorem merged_clean {l : List (List String)}
    (hc : noConfigTokens l) :
    ∀ M ∈ mergeLoop (workingOf l), ∀ y ∈ M,
      is_grid_definition y = false ∧ is_e2e_pin_definition y = false := by
  intro M hM y hy
  have : ∃ g ∈ workingOf l, y ∈ g := (mergeLoop_mem _ y).mp ⟨M, hM, hy⟩
  rcases mem_workingOf.mp this with ⟨g0, hg0, hyg⟩
  exact hc g0 hg0 y hyg

theorem reduce_mem (cfg : Config) (l : List (List String)) (hc : noConfigTokens l)
    (x : String) :
    (∃ G ∈ reduce_connection_groups cfg l, x ∈ G) ↔ ∃ g ∈ l, x ∈ g := by
  by_cases hl : l = []
  · subst hl
    simp [reduce_connection_groups]
  · rw [reduce_eq_of_ne_nil hl,
      exists_mem_perm (sortBy_perm (groupLe cfg) _) (fun G => x ∈ G)]
    simp only [List.mem_map]
    constructor
    · rintro ⟨G, ⟨M, hM, rfl⟩, hx⟩
      have hx2 : x ∈ M := (clean_mem_canonical (merged_clean hc M hM)).mp hx
      exact mem_workingOf.mp ((mergeLoop_mem _ x).mp ⟨M, hM, hx2⟩)
    · intro hgx
      rcases (mergeLoop_mem (workingOf l) x).mpr (mem_workingOf.mpr hgx)
        with ⟨M, hM, hx2⟩
      exact ⟨canonical_order cfg M, ⟨M, hM, rfl⟩,
        (clean_mem_canonical (merged_clean hc M hM)).mpr hx2⟩

theorem reduce_disj (cfg : Config) (l : List (List String)) :
    (reduce_connection_groups cfg l).Pairwise (fun G H => ∀ x, x ∈ G → x ∉ H) := by
  by_cases hl : l = []
  · subst hl
    simp [reduce_connection_groups]
  · rw [reduce_eq_of_ne_nil hl]
    have hperm := sortBy_perm (groupLe cfg)
      ((mergeLoop (workingOf l)).map (canonical_order cfg))
    have hp : ((mergeLoop (workingOf l)).map (canonical_order cfg)).Pairwise
        (fun G H => ∀ x, x ∈ G → x ∉ H) := by
      refine List.Pairwise.map _ ?_ (mergeLoop_disj (workingOf l))
      intro M N h x hx1 hx2
      exact h x (mem_canonical_order.mp hx1).1 (mem_canonical_order.mp hx2).1
    exact (List.Perm.pairwise_iff (fun h x hx hc2 => h x hc2 hx) hperm).mpr hp

theorem reduce_cover (cfg : Config) (l : List (List String)) (hc : noConfigTokens l) :
    ∀ g ∈ l, g ≠ [] → ∃ G ∈ reduce_connection_groups cfg l, ∀ x ∈ g, x ∈ G := by
  intro g hg hgne
  have hl : l ≠ [] := List.ne_nil_of_mem hg
  rw [reduce_eq_of_ne_nil hl,
    exists_mem_perm (sortBy_perm (groupLe cfg) _) (fun G => ∀ x ∈ g, x ∈ G)]
  have hwg : dedupList g ∈ workingOf l := by
    simp only [workingOf, List.mem_map, List.mem_filter]
    exact ⟨g, ⟨hg, by simp [List.isEmpty_iff, hgne]⟩, rfl⟩
  rcases mergeLoop_cover (workingOf l) (dedupList g) hwg with ⟨M, hM, hsub⟩
  refine ⟨canonical_order cfg M, List.mem_map.mpr ⟨M, hM, rfl⟩, ?_⟩
  intro x hx
  exact (clean_mem_canonical (merged_clean hc M hM)).mpr
    (hsub x (mem_dedupList.mpr hx))

theorem reduce_mem_shape {cfg : Config} {l : List (List String)} {G : List String}
    (hG : G ∈ reduce_connection_groups cfg l) :
    ∃ M ∈ mergeLoop (workingOf l), G = canonical_order cfg M := by
  by_cases hl : l = []
  · subst hl
    simp [reduce_connection_groups] at hG
  · rw [reduce_eq_of_ne_nil hl] at hG
    rcases List.mem_map.mp (mem_sortBy.mp hG) with ⟨M, hM, rfl⟩
    exact ⟨M, hM, rfl⟩

theorem reduce_nodup (cfg : Config) (l : List (List String)) :
    ∀ G ∈ reduce_connection_groups cfg l, G.Nodup := by
  intro G hG
  rcases reduce_mem_shape hG with ⟨M, hM, rfl⟩
  refine canonical_order_nodup (mergeLoop_nodup _ ?_ M hM)
  intro g hg
  rcases workingOf_group_mem hg with ⟨g0, _, _, rfl⟩
  exact dedupList_nodup g0

theorem reduce_ne_nil (cfg : Config) (l : List (List String)) (hc : noConfigTokens l) :
    ∀ G ∈ reduce_connection_groups cfg l, G ≠ [] := by
  intro G hG
  rcases reduce_mem_shape hG with ⟨M, hM, rfl⟩
  have hMne : M ≠ [] := by
    refine mergeLoop_ne _ ?_ M hM
    intro g hg
    rcases workingOf_group_mem hg with ⟨g0, _, hne, rfl⟩
    exact dedupList_ne_nil hne
  exact canonical_order_ne hMne (merged_clean hc M hM)

theorem reduce_sorted (cfg : Config) (l : List (List String)) :
    (reduce_connection_groups cfg l).Pairwise (fun G H => groupLe cfg G H = true) := by
  by_cases hl : l = []
  · subst hl
    simp [reduce_connection_groups]
  · rw [reduce_eq_of_ne_nil hl]
    exact sortBy_pairwise (groupLe_total cfg) (groupLe_trans cfg) _

/-- C1: for connection-group inputs (no configuration-definition tokens
among the elements, as the loader guarantees), reduce_connection_groups
returns a true partition of the elements of the input: the union of the
output groups equals the union of the input groups, no two output groups
share an element, and every input element lies in exactly one output
group. -/
theorem reduce_partition (cfg : Config) (l : List (List String))
    (hc : noConfigTokens l) :
    (∀ x, (∃ g ∈ l, x ∈ g) ↔ ∃ G ∈ reduce_connection_groups cfg l, x ∈ G) ∧
    (reduce_connection_groups cfg l).Pairwise (fun G H => ∀ x, x ∈ G → x ∉ H) ∧
    (∀ x, (∃ g ∈ l, x ∈ g) →
      ∃! G, G ∈ reduce_connection_groups cfg l ∧ x ∈ G) := by
  have hsym : Symmetric (fun G H : List String => ∀ x, x ∈ G → x ∉ H) :=
    fun G H h x hx hc2 => h x hc2 hx
  refine ⟨fun x => (reduce_mem cfg l hc x).symm, reduce_disj cfg l, ?_⟩
  intro x hx
  rcases (reduce_mem cfg l hc x).mpr hx with ⟨G, hG, hxG⟩
  refine ⟨G, ⟨hG, hxG⟩, ?_⟩
  rintro H ⟨hH, hxH⟩
  by_contra hne
  exact (reduce_disj cfg l).forall hsym hH hG hne x hxH hxG

/-- Witness for C1 at a concrete input, including the scenario where two
overlapping statements merge and a disjoint one stays apart. -/
theorem reduce_partition_witness :
    (∀ x, (∃ g ∈ [["B1", "B2"], ["B2", "B3"], ["B4"]], x ∈ g) ↔
      ∃ G ∈ reduce_connection_groups ⟨["B"], ["G", "T"]⟩
        [["B1", "B2"], ["B2", "B3"], ["B4"]], x ∈ G) ∧
    (reduce_connection_groups ⟨["B"], ["G", "T"]⟩
      [["B1", "B2"], ["B2", "B3"], ["B4"]]).Pairwise
        (fun G H => ∀ x, x ∈ G → x ∉ H) ∧
    (∀ x, (∃ g ∈ [["B1", "B2"], ["B2", "B3"], ["B4"]], x ∈ g) →
      ∃! G, G ∈ reduce_connection_groups ⟨["B"], ["G", "T"]⟩
        [["B1", "B2"], ["B2", "B3"], ["B4"]] ∧ x ∈ G) :=
  reduce_partition ⟨["B"], ["G", "T"]⟩ [["B1", "B2"], ["B2", "B3"], ["B4"]]
    (by decide)

/-- C2: the reducer computes the full transitive closure of overlap: if
group1 overlaps group2 and group2 overlaps group3, all three end up inside
one single output group, even when group1 and group3 share nothing. -/
theorem reduce_transitivity (cfg : Config) (l : List (List String))
    (hc : noConfigTokens l) (g1 g2 g3 : List String)
    (h1 : g1 ∈ l) (h2 : g2 ∈ l) (h3 : g3 ∈ l)
    (h12 : ∃ x, x ∈ g1 ∧ x ∈ g2) (h23 : ∃ y, y ∈ g2 ∧ y ∈ g3) :
    ∃ G ∈ reduce_connection_groups cfg l,
      (∀ a ∈ g1, a ∈ G) ∧ (∀ a ∈ g2, a ∈ G) ∧ (∀ a ∈ g3, a ∈ G) := by
  have hsym : Symmetric (fun G H : List String => ∀ x, x ∈ G → x ∉ H) :=
    fun G H h x hx hc2 => h x hc2 hx
  rcases h12 with ⟨x, hx1, hx2⟩
  rcases h23 with ⟨y, hy2, hy3⟩
  rcases reduce_cover cfg l hc g1 h1 (List.ne_nil_of_mem hx1) with ⟨G1, hG1, hs1⟩
  rcases reduce_cover cfg l hc g2 h2 (List.ne_nil_of_mem hx2) with ⟨G2, hG2, hs2⟩
  rcases reduce_cover cfg l hc g3 h3 (List.ne_nil_of_mem hy3) with ⟨G3, hG3, hs3⟩
  have e12 : G1 = G2 := by
    by_contra hne
    exact (reduce_disj cfg l).forall hsym hG1 hG2 hne x (hs1 x hx1) (hs2 x hx2)
  have e23 : G2 = G3 := by
    by_contra hne
    exact (reduce_disj cfg l).forall hsym hG2 hG3 hne y (hs2 y hy2) (hs3 y hy3)
  subst e12
  subst e23
  exact ⟨G1, hG1, hs1, hs2, hs3⟩

/-- Witness for C2 on a chain A1-A2, A2-A3, A3-A4 where the first and
third statements share nothing directly. -/
theorem reduce_transitivity_witness :
    ∃ G ∈ reduce_connection_groups ⟨["A"], ["G", "T"]⟩
      [["A1", "A2"], ["A2", "A3"], ["A3", "A4"]],
      (∀ a ∈ ["A1", "A2"], a ∈ G) ∧ (∀ a ∈ ["A2", "A3"], a ∈ G) ∧
        (∀ a ∈ ["A3", "A4"], a ∈ G) :=
  reduce_transitivity ⟨["A"], ["G", "T"]⟩
    [["A1", "A2"], ["A2", "A3"], ["A3", "A4"]] (by decide)
    ["A1", "A2"] ["A2", "A3"] ["A3", "A4"]
    (by decide) (by decide) (by decide)
    ⟨"A2", by decide, by decide⟩ ⟨"A3", by decide, by decide⟩

/-- C6: every group returned by reduce_connection_groups lists its non-pin
members first, sorted case-insensitively, followed by its pin members
sorted by grid letter and then numeric index. -/
theorem reduce_canonical_member_order (cfg : Config) (l : List (List String))
    (G : List String) (hG : G ∈ reduce_connection_groups cfg l) :
    ∃ ext pins, G = ext ++ pins ∧
      (∀ x ∈ ext, is_pin cfg x = false) ∧
      (∀ x ∈ pins, is_pin cfg x = true) ∧
      ext.Pairwise (fun a b => upperLe a b = true) ∧
      pins.Pairwise (fun a b => pinLe a b = true) := by
  rcases reduce_mem_shape hG with ⟨M, hM, rfl⟩
  refine ⟨sortBy upperLe (M.filter (isExternalKept cfg)),
    sortBy pinLe (M.filter (is_pin cfg)), rfl, ?_, ?_,
    sortBy_pairwise upperLe_total upperLe_trans _,
    sortBy_pairwise pinLe_total pinLe_trans _⟩
  · intro x hx
    have := (List.mem_filter.mp (mem_sortBy.mp hx)).2
    simp only [isExternalKept, Bool.and_eq_true] at this
    rcases this with ⟨⟨h1, _⟩, _⟩
    simpa using h1
  · exact fun x hx => (List.mem_filter.mp (mem_sortBy.mp hx)).2

/-- Witness for C6 on a group mixing pins of two grids and external
items. -/
theorem reduce_canonical_member_order_witness :
    ∃ ext pins,
      (["G", "P1+", "A1", "A2", "B1"] : List String) = ext ++ pins ∧
      (∀ x ∈ ext, is_pin ⟨["A", "B"], ["G", "T"]⟩ x = false) ∧
      (∀ x ∈ pins, is_pin ⟨["A", "B"], ["G", "T"]⟩ x = true) ∧
      ext.Pairwise (fun a b => upperLe a b = true) ∧
      pins.Pairwise (fun a b => pinLe a b = true) :=
  reduce_canonical_member_order ⟨["A", "B"], ["G", "T"]⟩
    [["A2", "P1+", "B1"], ["P1+", "G", "A1", "A2"]]
    ["G", "P1+", "A1", "A2", "B1"] (by decide)

/-- C7: reduce_connection_groups is idempotent on connection-group inputs:
reducing its own output returns exactly the same list of groups. -/
theorem reduce_idempotent (cfg : Config) (l : List (List String))
    (hc : noConfigTokens l) :
    reduce_connection_groups cfg (reduce_connection_groups cfg l) =
      reduce_connection_groups cfg l := by
  by_cases h0 : reduce_connection_groups cfg l = []
  · rw [h0]
    simp [reduce_connection_groups]
  · rw [reduce_eq_of_ne_nil h0]
    have hne := reduce_ne_nil cfg l hc
    have hnd := reduce_nodup cfg l
    have hwork : workingOf (reduce_connection_groups cfg l) =
        reduce_connection_groups cfg l := by
      rw [workingOf, List.filter_eq_self.mpr ?_, map_id_of ?_]
      · intro G hG
        exact dedupList_of_nodup (hnd G hG)
      · intro G hG
        simp [List.isEmpty_iff, hne G hG]
    rw [hwork, mergeLoop_id _ (reduce_disj cfg l), map_id_of ?_,
      sortBy_of_pairwise (reduce_sorted cfg l)]
    intro G hG
    rcases reduce_mem_shape hG with ⟨M, _, rfl⟩
    exact canonical_order_idem cfg M

/-- Witness for C7 at a concrete overlapping input. -/
theorem reduce_idempotent_witness :
    reduce_connection_groups ⟨["A"], ["G", "T"]⟩
      (reduce_connection_groups ⟨["A"], ["G", "T"]⟩
        [["A1", "A2"], ["A2", "P1+"], ["A4"]]) =
      reduce_connection_groups ⟨["A"], ["G", "T"]⟩
        [["A1", "A2"], ["A2", "P1+"], ["A4"]] :=
  reduce_idempotent ⟨["A"], ["G", "T"]⟩ [["A1", "A2"], ["A2", "P1+"], ["A4"]]
    (by decide)

/-! ### A step machine for the nested while loops of the reducer -/

/-- State of the nested while loops of reduce_connection_groups: outer
(merged groups so far, working list), inner (merged groups so far, current
accumulator, scanned prefix, remaining suffix) and halt (final merged
list). -/
inductive MState where
  | outer : List (List String) → List (List String) → MState
  | inner : List (List String) → List String → List (List String) →
      List (List String) → MState
  | halt : List (List String) → MState
deriving DecidableEq

/-- One iteration of the while loops: the outer loop pops the next working
group, the inner loop either absorbs an overlapping group and restarts its
scan at index 0, or advances the scan index. -/
def mstep : MState → MState
  | .outer done [] => .halt done
  | .outer done (g :: ws) => .inner done g [] ws
  | .inner done cur pre [] => .outer (done ++ [cur]) pre
  | .inner done cur pre (g :: post) =>
      if overlapB cur g then .inner done (unionL cur g) [] (pre ++ post)
      else .inner done cur (pre ++ [g]) post
  | .halt done => .halt done

/-- The number of groups not yet emitted into the merged list, counting
the accumulator of an inner scan. -/
def unprocessed : MState → Nat
  | .outer _ ws => ws.length
  | .inner _ _ pre post => pre.length + post.length + 1
  | .halt _ => 0

theorem mstep_inner (n : Nat) (done : List (List String)) (cur : List String)
    (pre post : List (List String))
    (hn : post.length + (pre.length + post.length) * (pre.length + post.length) ≤ n) :
    ∃ k, mstep^[k] (.inner done cur pre post) =
      .outer (done ++ [(absorbGo n cur pre post).1]) (absorbGo n cur pre post).2 := by
  induction n generalizing cur pre post with
  | zero =>
    have hpost : post = [] := by
      cases post with
      | nil => rfl
      | cons g post2 => simp at hn
    subst hpost
    exact ⟨1, by simp [mstep, absorbGo]⟩
  | succ n ih =>
    cases post with
    | nil => exact ⟨1, by simp [mstep, absorbGo]⟩
    | cons g post2 =>
      simp only [List.length_cons] at hn
      have ht : pre.length + (post2.length + 1) = pre.length + post2.length + 1 := by
        omega
      rw [ht] at hn
      rcases arith_fuel_step (pre.length + post2.length) post2.length n hn with ⟨h1, h2⟩
      by_cases h : overlapB cur g = true
      · rcases ih (unionL cur g) [] (pre ++ post2) (by simpa using h2) with ⟨k, hk⟩
        refine ⟨k + 1, ?_⟩
        rw [Function.iterate_succ_apply]
        simp only [mstep, if_pos h]
        rw [hk]
        simp only [absorbGo, if_pos h]
      · have hb : post2.length +
            ((pre ++ [g]).length + post2.length) * ((pre ++ [g]).length + post2.length)
              ≤ n := by
          simp only [List.length_append, List.length_cons, List.length_nil]
          have he : pre.length + 1 + post2.length = pre.length + post2.length + 1 := by
            omega
          rw [he]
          exact h1
        rcases ih cur (pre ++ [g]) post2 hb with ⟨k, hk⟩
        refine ⟨k + 1, ?_⟩
        rw [Function.iterate_succ_apply]
        simp only [mstep, if_neg h]
        rw [hk]
        simp only [absorbGo, if_neg h]

theorem mstep_outer (n : Nat) (done ws : List (List String)) (hn : ws.length ≤ n) :
    ∃ k, mstep^[k] (.outer done ws) = .halt (done ++ mergeLoopGo n ws) := by
  induction n generalizing done ws with
  | zero =>
    have hws : ws = [] := List.length_eq_zero.mp (Nat.le_zero.mp hn)
    subst hws
    exact ⟨1, by simp [mstep, mergeLoopGo]⟩
  | succ n ih =>
    cases ws with
    | nil => exact ⟨1, by simp [mstep, mergeLoopGo]⟩
    | cons g ws2 =>
      have hlen : (absorbGo (absorbFuel ws2.length) g [] ws2).2.length ≤ n := by
        have := absorbGo_len (absorbFuel ws2.length) g [] ws2
        simp only [List.length_nil, List.length_cons] at this hn
        omega
      rcases mstep_inner (absorbFuel ws2.length) done g [] ws2
        (absorbFuel_spec [] ws2 rfl) with ⟨k1, hk1⟩
      rcases ih (done ++ [(absorbGo (absorbFuel ws2.length) g [] ws2).1])
        (absorbGo (absorbFuel ws2.length) g [] ws2).2 hlen with ⟨k2, hk2⟩
      refine ⟨k2 + (k1 + 1), ?_⟩
      rw [Function.iterate_add_apply, Function.iterate_succ_apply]
      have hstep : mstep (.outer done (g :: ws2)) = .inner done g [] ws2 := rfl
      rw [hstep, hk1, hk2]
      simp only [mergeLoopGo, List.append_assoc, List.singleton_append]

/-- C10: the nested while loops of reduce_connection_groups terminate on
every finite input.  Every merge branch of the inner scan strictly
decreases the number of unprocessed groups, and from any initial working
list the step machine reaches the halt state carrying exactly the merged
groups that mergeLoop computes. -/
theorem reduce_terminates :
    (∀ (done : List (List String)) (cur : List String)
      (pre : List (List String)) (g : List String) (post : List (List String)),
      overlapB cur g = true →
        unprocessed (mstep (.inner done cur pre (g :: post))) <
          unprocessed (.inner done cur pre (g :: post))) ∧
    (∀ ws : List (List String), ∃ k,
      mstep^[k] (.outer [] ws) = .halt (mergeLoop ws)) := by
  constructor
  · intro done cur pre g post h
    simp only [mstep, if_pos h, unprocessed, List.length_append, List.length_nil,
      List.length_cons]
    omega
  · intro ws
    rcases mstep_outer ws.length [] ws (le_refl _) with ⟨k, hk⟩
    exact ⟨k, by simpa [mergeLoop] using hk⟩

/-- Witness for C10: a merge step at a concrete state strictly decreases
the unprocessed count, and a concrete working list reaches halt. -/
theorem reduce_terminates_witness :
    (unprocessed (mstep (.inner [] ["A1"] [["A3"]] (["A1", "A2"] :: []))) <
      unprocessed (.inner [] ["A1"] [["A3"]] [["A1", "A2"]])) ∧
    ∃ k, mstep^[k] (.outer [] [["A1", "A2"], ["A2", "A3"]]) =
      .halt (mergeLoop [["A1", "A2"], ["A2", "A3"]]) :=
  ⟨reduce_terminates.1 [] ["A1"] [["A3"]] ["A1", "A2"] [] (by decide),
   reduce_terminates.2 [["A1", "A2"], ["A2", "A3"]]⟩

/-! ### The chart renderer: apply_coloring -/

/-- One-character string. -/
def charStr (c : Char) : String := ⟨[c]⟩

/-- Concatenation of a list of strings. -/
def strConcat (cells : List String) : String := ⟨(cells.map String.data).flatten⟩

/-- Model of list.insert(i, code) on the character-cell list of a line:
the marker string goes in as a single new element; an index beyond the end
appends, as in Python. -/
def insertAt (cells : List String) (i : Nat) (code : String) : List String :=
  cells.take i ++ code :: cells.drop i

/-- The per-line body of apply_coloring: sort the (column, code) pairs by
column descending (stable) and insert each code at its column in the
exploded character list, then re-join. -/
def applyLine (line : String) (lineOps : List (Nat × String)) : String :=
  let sorted := sortBy (fun a b : Nat × String => decide (b.1 ≤ a.1)) lineOps
  strConcat (sorted.foldl (fun cs op => insertAt cs op.1 op.2)
    (line.data.map charStr))

/-- The operations of ops that target line r, in input order. -/
def opsAt (ops : List (Nat × Nat × String)) (r : Nat) : List (Nat × String) :=
  (ops.filter (fun o => decide (o.1 = r))).map (fun o => (o.2.1, o.2.2))

/-- Per-line traversal of the lines list, numbering lines from r. -/
def colorLines (ops : List (Nat × Nat × String)) : Nat → List String → List String
  | _, [] => []
  | r, line :: rest => applyLine line (opsAt ops r) :: colorLines ops (r + 1) rest

/-- Model of apply_coloring: the value of the lines list after the call
(the Python function updates the list entries in place). -/
def apply_coloring (lines : List String) (ops : List (Nat × Nat × String)) :
    List String :=
  colorLines ops 0 lines

theorem strConcat_charStr (cs : List Char) : strConcat (cs.map charStr) = ⟨cs⟩ := by
  simp only [strConcat, List.map_map]
  congr 1
  induction cs with
  | nil => rfl
  | cons c rest ih => simp [charStr, ih]

/-- Sanity check of the embedding: a line with no operations is returned
unchanged, as in Python where untouched lines are never rewritten. -/
theorem applyLine_nil (line : String) : applyLine line [] = line := by
  rw [applyLine]
  simp only [sortBy, List.foldl_nil]
  rw [strConcat_charStr]

theorem sortDesc_pair {c1 c2 : Nat} {s1 s2 : String} (h : c1 ≠ c2) :
    sortBy (fun a b : Nat × String => decide (b.1 ≤ a.1)) [(c1, s1), (c2, s2)] =
      sortBy (fun a b : Nat × String => decide (b.1 ≤ a.1)) [(c2, s2), (c1, s1)] := by
  simp only [sortBy, insertSorted]
  rcases Nat.lt_or_ge c1 c2 with h1 | h1
  · rw [if_neg (by simp; omega), if_pos (by simp; omega)]
  · have h2 : c2 < c1 := by omega
    rw [if_pos (by simp; omega), if_neg (by simp; omega)]

/-- C5: two render operations on the same line at distinct columns give
the same final text in either input order, because apply_coloring sorts
the operations of a line by descending column before inserting. -/
theorem apply_coloring_comm (lines : List String) (r c1 c2 : Nat)
    (s1 s2 : String) (hne : c1 ≠ c2) :
    apply_coloring lines [(r, c1, s1), (r, c2, s2)] =
      apply_coloring lines [(r, c2, s2), (r, c1, s1)] := by
  rw [apply_coloring, apply_coloring]
  suffices h : ∀ k ls, colorLines [(r, c1, s1), (r, c2, s2)] k ls =
      colorLines [(r, c2, s2), (r, c1, s1)] k ls from h 0 lines
  intro k ls
  induction ls generalizing k with
  | nil => rfl
  | cons line rest ih =>
    simp only [colorLines, ih]
    congr 1
    by_cases hk : r = k
    · subst hk
      have ho1 : opsAt [(r, c1, s1), (r, c2, s2)] r = [(c1, s1), (c2, s2)] := by
        simp [opsAt]
      have ho2 : opsAt [(r, c2, s2), (r, c1, s1)] r = [(c2, s2), (c1, s1)] := by
        simp [opsAt]
      rw [ho1, ho2, applyLine, applyLine, sortDesc_pair hne]
    · have ho1 : opsAt [(r, c1, s1), (r, c2, s2)] k = [] := by
        simp [opsAt, hk]
      have ho2 : opsAt [(r, c2, s2), (r, c1, s1)] k = [] := by
        simp [opsAt, hk]
      rw [ho1, ho2]

/-- Witness for C5 on a concrete line with markers at columns 1 and 4. -/
theorem apply_coloring_comm_witness :
    apply_coloring ["abcdef"] [(0, 1, "X"), (0, 4, "Y")] =
      apply_coloring ["abcdef"] [(0, 4, "Y"), (0, 1, "X")] :=
  apply_coloring_comm ["abcdef"] 0 1 4 "X" "Y" (by decide)

/-! ### The grid coordinate mapper: generate_ascii_grid -/

/-- Model of str.center(width) with the CPython padding split. -/
def pycenter (s : String) (w : Nat) : String :=
  if w ≤ s.length then s
  else
    let marg := w - s.length
    let left := marg / 2 + (marg &&& w &&& 1)
    ⟨List.replicate left ' ' ++ s.data ++ List.replicate (marg - left) ' '⟩

/-- Decimal digits of a natural number, with structural fuel. -/
def natDigitsGo : Nat → Nat → List Char
  | 0, _ => []
  | _ + 1, 0 => []
  | fuel + 1, n => natDigitsGo fuel (n / 10) ++ [Char.ofNat (48 + n % 10)]

/-- Decimal representation of a natural number, as str() produces it. -/
def natStr (n : Nat) : String :=
  if n = 0 then "0" else ⟨natDigitsGo (n + 1) n⟩

/-- One border segment: cell-width dashes and a plus. -/
def borderSeg (cellW : Nat) : String := ⟨List.replicate cellW '-' ++ ['+']⟩

/-- The border line: a plus, then C segments of dashes and pluses. -/
def borderLine (cellW : Nat) : Nat → String
  | 0 => "+"
  | c + 1 => borderLine cellW c ++ borderSeg cellW

/-- The inner loop of generate_ascii_grid over the cells of one row:
first record the entry (cell name, line index, closing pipe offset at the
current row length plus the cell width), then extend the row text with the
centered cell label and a pipe. -/
def gridRowGo (pfx : String) (cellW lineIdx : Nat) :
    Nat → Nat → String → List (String × Nat × Nat) × String × Nat
  | 0, dot, row => ([], row, dot)
  | c + 1, dot, row =>
      let name := pfx ++ natStr dot
      let entry := (name, lineIdx, row.length + cellW)
      let res := gridRowGo pfx cellW lineIdx c (dot + 1)
        (row ++ pycenter name cellW ++ "|")
      (entry :: res.1, res.2)

/-- The outer loop of generate_ascii_grid over the rows: row i lives at
line index 2*i+1, and the dot number keeps counting row-major. -/
def gridRowsGo (pfx : String) (cellW C : Nat) :
    Nat → Nat → Nat → List String × List (String × Nat × Nat)
  | 0, _, _ => ([], [])
  | r + 1, i, dot =>
      let row := gridRowGo pfx cellW (2 * i + 1) C dot "|"
      let rest := gridRowsGo pfx cellW C r (i + 1) row.2.2
      (row.2.1 :: rest.1, row.1 ++ rest.2)

/-- Interleave border lines after each row text, closing with a final
border. -/
def withBorders (border : String) : List String → List String
  | [] => [border]
  | [row] => [row, border]
  | row :: row2 :: rest => row :: border :: withBorders border (row2 :: rest)

/-- Model of generate_ascii_grid: the bordered grid text lines and the
coordinate map from cell name to (line index, closing pipe offset). -/
def generate_ascii_grid (pfx : String) (C R cellW : Nat) :
    List String × List (String × Nat × Nat) :=
  let res := gridRowsGo pfx cellW C R 0 1
  (borderLine cellW C :: withBorders (borderLine cellW C) res.1, res.2)

theorem gridRowGo_entries (pfx : String) (cellW lineIdx : Nat) :
    ∀ (c dot : Nat) (row : String),
      (∀ e ∈ (gridRowGo pfx cellW lineIdx c dot row).1,
        e.2.1 = lineIdx ∧ row.length + cellW ≤ e.2.2) ∧
      (gridRowGo pfx cellW lineIdx c dot row).1.Pairwise
        (fun a b => a.2.2 < b.2.2) := by
  intro c
  induction c with
  | zero => intro dot row; simp [gridRowGo]
  | succ c ih =>
    intro dot row
    simp only [gridRowGo]
    have hlen : row.length + 1 ≤
        (row ++ pycenter (pfx ++ natStr dot) cellW ++ "|").length := by
      rw [String.length_append, String.length_append]
      have : (("|" : String)).length = 1 := rfl
      omega
    rcases ih (dot + 1) (row ++ pycenter (pfx ++ natStr dot) cellW ++ "|")
      with ⟨hall, hpw⟩
    constructor
    · intro e he
      rcases List.mem_cons.mp he with rfl | he2
      · exact ⟨rfl, le_refl _⟩
      · rcases hall e he2 with ⟨h1, h2⟩
        exact ⟨h1, by omega⟩
    · refine List.pairwise_cons.mpr ⟨?_, hpw⟩
      intro e he
      rcases hall e he with ⟨_, h2⟩
      simp only
      omega

theorem gridRowsGo_entries (pfx : String) (cellW C : Nat) :
    ∀ (r i dot : Nat),
      (∀ e ∈ (gridRowsGo pfx cellW C r i dot).2, 2 * i + 1 ≤ e.2.1) ∧
      (gridRowsGo pfx cellW C r i dot).2.Pairwise (fun a b => a.2 ≠ b.2) := by
  intro r
  induction r with
  | zero => intro i dot; simp [gridRowsGo]
  | succ r ih =>
    intro i dot
    simp only [gridRowsGo]
    rcases gridRowGo_entries pfx cellW (2 * i + 1) C dot "|" with ⟨hall, hpw⟩
    rcases ih (i + 1) ((gridRowGo pfx cellW (2 * i + 1) C dot "|").2.2)
      with ⟨hall2, hpw2⟩
    constructor
    · intro e he
      rcases List.mem_append.mp he with h1 | h1
      · rw [(hall e h1).1]
      · have := hall2 e h1
        omega
    · rw [List.pairwise_append]
      refine ⟨?_, hpw2, ?_⟩
      · refine hpw.imp ?_
        intro a b hab hc
        rw [hc] at hab
        exact lt_irrefl _ hab
      · intro a ha b hb
        have h1 := (hall a ha).1
        have h2 := hall2 b hb
        intro hc
        have : a.2.1 = b.2.1 := congrArg Prod.fst hc
        omega

/-- C8: the coordinate map of generate_ascii_grid is injective for every
grid: two distinct cell names never share a (line index, column offset)
coordinate, for all positive dimensions and cell widths. -/
theorem generate_ascii_grid_injective (pfx : String) (C R cellW : Nat)
    (hC : 0 < C) (hR : 0 < R) (hW : 0 < cellW) (p q : String) (cp cq : Nat × Nat)
    (hpq : p ≠ q)
    (hp : alookup (generate_ascii_grid pfx C R cellW).2 p = some cp)
    (hq : alookup (generate_ascii_grid pfx C R cellW).2 q = some cq) :
    cp ≠ cq := by
  have hpm := mem_of_alookup hp
  have hqm := mem_of_alookup hq
  have hpw := (gridRowsGo_entries pfx cellW C R 0 1).2
  have hsym : Symmetric (fun a b : String × Nat × Nat => a.2 ≠ b.2) :=
    fun a b h => h.symm
  have hne : (p, cp) ≠ (q, cq) := by
    intro h
    exact hpq (congrArg Prod.fst h)
  exact hpw.forall hsym hpm hqm hne

/-- Witness for C8 on a 2 by 2 grid of width 8: cells A1 and A2 get
distinct coordinates. -/
theorem generate_ascii_grid_injective_witness :
    ((1 : Nat), (9 : Nat)) ≠ ((1 : Nat), (18 : Nat)) :=
  generate_ascii_grid_injective "A" 2 2 8 (by decide) (by decide) (by decide)
    "A1" "A2" (1, 9) (1, 18) (by decide) (by decide) (by decide)

/-! ### The color assigner: calculate_global_colors -/

/-- The color of palette slot i with cyclic reuse. -/
def colorAt (i : Nat) : String := COLORS.getD (i % COLORS.length) RESET

/-- The group_to_color dict keyed by the group tuple: position in the
input list order decides the palette slot; later duplicates overwrite. -/
def group_to_color (groups : List (List String)) (g : List String) : String :=
  (alookup (groups.enum.map (fun p => (p.2, colorAt p.1))).reverse g).getD RESET

/-- The priority class of a group: 0 with an E2E pin, 1 with any external
item, 2 for pure pins. -/
def group_priority_key (cfg : Config) (g : List String) : Nat :=
  if g.any (fun item => memB cfg.e2ePins item) then 0
  else if g.any (fun item => !is_pin cfg item) then 1
  else 2

/-- The groups in map-population order: stable-sorted by priority class. -/
def priority_sorted (cfg : Config) (groups : List (List String)) :
    List (List String) :=
  sortBy (fun g h => decide (group_priority_key cfg g ≤ group_priority_key cfg h))
    groups

/-- Insert k with value v only when absent (pin map population). -/
def setIfAbsent (m : List (String × String)) (k v : String) :
    List (String × String) :=
  if (alookup m k).isSome then m else m ++ [(k, v)]

/-- Replace the value of an entry whose key is k. -/
def overwriteEntry (k v : String) (p : String × String) : String × String :=
  if p.1 = k then (k, v) else p

/-- Unconditional dict write: overwrite in place or append (external map
population). -/
def dictWrite (m : List (String × String)) (k v : String) :
    List (String × String) :=
  if (alookup m k).isSome then m.map (overwriteEntry k v)
  else m ++ [(k, v)]

/-- Add to a set kept in insertion order. -/
def addToSet (s : List String) (k : String) : List String :=
  if memB s k then s else s ++ [k]

/-- The three accumulators filled while iterating the sorted groups. -/
structure CMaps where
  pins : List (String × String)
  exts : List (String × String)
  extSet : List String
deriving DecidableEq, Repr

/-- Process one item of a group carrying the group color: pins go to the
pin map set-if-absent; non-pin items that are not configuration tokens are
written unconditionally to the external map and added to the external
set. -/
def addItem (cfg : Config) (color : String) (st : CMaps) (item : String) : CMaps :=
  if is_pin cfg item then
    { st with pins := setIfAbsent st.pins item color }
  else if !is_grid_definition item && !is_e2e_pin_definition item then
    { st with exts := dictWrite st.exts item color,
              extSet := addToSet st.extSet item }
  else st

/-- Process one whole group. -/
def addGroup (cfg : Config) (gcolor : List String → String) (st : CMaps)
    (g : List String) : CMaps :=
  g.foldl (addItem cfg (gcolor g)) st

/-- The map-population loop of calculate_global_colors over the sorted
groups. -/
def buildMaps (cfg : Config) (gcolor : List String → String)
    (sortedGroups : List (List String)) : CMaps :=
  sortedGroups.foldl (addGroup cfg gcolor) ⟨[], [], []⟩

/-- The first character of a string as a string (item[0]). -/
def strHead (s : String) : String :=
  match s.data with
  | [] => ""
  | c :: _ => ⟨[c]⟩

/-- The render-operation loop over the pin color map in insertion order:
a terminator at the closing pipe and the color code at the cell start, for
pins whose grid and coordinate are known. -/
def pin_ops (map_coords : List (String × List (String × Nat × Nat)))
    (state_pins : List (String × List String)) (cellW : Nat)
    (pins : List (String × String)) : List (Nat × Nat × String × String) :=
  pins.foldl (fun acc p =>
    match alookup map_coords (strHead p.1) with
    | none => acc
    | some cmap =>
      match alookup cmap p.1 with
      | none => acc
      | some rc =>
        let sp := (alookup state_pins (strHead p.1)).getD []
        let fmt := if memB sp p.1 then TEXT_BOLD_ITALIC_STATE else ""
        acc ++ [(rc.1, rc.2, PIN_TERMINATOR, strHead p.1),
                (rc.1, rc.2 - cellW, p.2 ++ fmt, strHead p.1)]) []

/-- The result record of calculate_global_colors. -/
structure GlobalColors where
  pin_color_map : List (String × String)
  external_color_map : List (String × String)
  consolidated_pin_ops : List (Nat × Nat × String × String)
  all_unique_external_items : List String
deriving DecidableEq, Repr

/-- Model of calculate_global_colors. -/
def calculate_global_colors (cfg : Config) (groups : List (List String))
    (map_coords : List (String × List (String × Nat × Nat)))
    (state_pins : List (String × List String)) (cellW : Nat) : GlobalColors :=
  let m := buildMaps cfg (group_to_color groups) (priority_sorted cfg groups)
  ⟨m.pins, m.exts, pin_ops map_coords state_pins cellW m.pins, m.extSet⟩

theorem alookup_setIfAbsent_self (m : List (String × String)) (k v : String) :
    alookup (setIfAbsent m k v) k = (alookup m k).or (some v) := by
  rw [setIfAbsent]
  cases h : alookup m k with
  | some w => simp [h]
  | none => simp [h, alookup_append, alookup]

theorem alookup_setIfAbsent_ne (m : List (String × String)) (k v k2 : String)
    (h : k2 ≠ k) : alookup (setIfAbsent m k v) k2 = alookup m k2 := by
  rw [setIfAbsent]
  split_ifs with h1
  · rfl
  · rw [alookup_append]
    simp [alookup, h]

theorem alookup_map_overwrite (m : List (String × String)) (k v k2 : String) :
    alookup (m.map (overwriteEntry k v)) k2 =
      if k2 = k then Option.map (fun _ => v) (alookup m k) else alookup m k2 := by
  induction m with
  | nil =>
    simp only [List.map_nil, alookup, Option.map_none]
    split <;> rfl
  | cons p rest ih =>
    rcases p with ⟨k3, v3⟩
    simp only [List.map_cons]
    by_cases h3 : k3 = k
    · have he : overwriteEntry k v (k3, v3) = (k, v) := by
        simp [overwriteEntry, h3]
      rw [he]
      simp only [alookup]
      by_cases hk : k2 = k
      · rw [if_pos hk, if_pos hk, if_pos h3.symm]
        rfl
      · rw [if_neg hk, if_neg hk, ih, if_neg hk,
          if_neg (fun hc : k2 = k3 => hk (hc.trans h3))]
    · have he : overwriteEntry k v (k3, v3) = (k3, v3) := by
        simp [overwriteEntry, h3]
      rw [he]
      simp only [alookup]
      by_cases h2 : k2 = k3
      · have hk : ¬ k2 = k := fun hc => h3 (h2.symm.trans hc)
        rw [if_pos h2, if_neg hk, if_pos h2]
      · rw [if_neg h2, ih]
        by_cases hk : k2 = k
        · rw [if_pos hk, if_pos hk, if_neg (fun hc : k = k3 => h3 hc.symm)]
        · rw [if_neg hk, if_neg hk, if_neg h2]

theorem alookup_dictWrite_self (m : List (String × String)) (k v : String) :
    alookup (dictWrite m k v) k = some v := by
  rw [dictWrite]
  split_ifs with h1
  · rw [alookup_map_overwrite, if_pos rfl]
    rcases Option.isSome_iff_exists.mp h1 with ⟨w, hw⟩
    rw [hw]
    rfl
  · rw [alookup_append]
    cases h : alookup m k with
    | some w => exact absurd (by simp [h]) h1
    | none => simp [alookup]

theorem alookup_dictWrite_ne (m : List (String × String)) (k v k2 : String)
    (h : k2 ≠ k) : alookup (dictWrite m k v) k2 = alookup m k2 := by
  rw [dictWrite]
  split_ifs with h1
  · rw [alookup_map_overwrite, if_neg h]
  · rw [alookup_append]
    simp [alookup, h]

theorem addItems_pins_lookup (cfg : Config) (c : String) (g : List String)
    (st : CMaps) (p : String) (hp : is_pin cfg p = true) :
    alookup (g.foldl (addItem cfg c) st).pins p =
      (alookup st.pins p).or (if memB g p then some c else none) := by
  induction g generalizing st with
  | nil => simp [memB]
  | cons item g2 ih =>
    rw [List.foldl_cons, ih]
    by_cases hi : item = p
    · subst hi
      have hpin : (addItem cfg c st item).pins = setIfAbsent st.pins item c := by
        rw [addItem, if_pos hp]
      rw [hpin, alookup_setIfAbsent_self]
      have hm : memB (item :: g2) item = true := by
        simp [memB]
      rw [hm]
      by_cases h2 : memB g2 item = true
      · rw [h2]
        simp [Option.or_assoc]
      · rw [Bool.not_eq_true] at h2
        rw [h2]
        simp [Option.or_assoc]
    · have hpin : (addItem cfg c st item).pins = st.pins ∨
          (addItem cfg c st item).pins = setIfAbsent st.pins item c := by
        rw [addItem]
        split_ifs <;> simp
      have hlk : alookup (addItem cfg c st item).pins p = alookup st.pins p := by
        rcases hpin with h1 | h1
        · rw [h1]
        · rw [h1, alookup_setIfAbsent_ne _ _ _ _ (Ne.symm hi)]
      rw [hlk]
      have hm : memB (item :: g2) p = memB g2 p := by
        simp only [memB, List.any_cons]
        have : (item = p) = False := by simp [hi]
        simp [this]
      rw [hm]

theorem addItems_exts_lookup (cfg : Config) (c : String) (g : List String)
    (st : CMaps) (e : String) (he1 : is_pin cfg e = false)
    (he2 : is_grid_definition e = false) (he3 : is_e2e_pin_definition e = false) :
    alookup (g.foldl (addItem cfg c) st).exts e =
      if memB g e then some c else alookup st.exts e := by
  induction g generalizing st with
  | nil => simp [memB]
  | cons item g2 ih =>
    rw [List.foldl_cons, ih]
    by_cases hi : item = e
    · subst hi
      have hext : (addItem cfg c st item).exts = dictWrite st.exts item c := by
        rw [addItem, if_neg (by simp [he1]), if_pos (by simp [he2, he3])]
      have hm : memB (item :: g2) item = true := by simp [memB]
      rw [hm, if_pos rfl]
      by_cases h2 : memB g2 item = true
      · rw [h2, if_pos rfl]
      · rw [Bool.not_eq_true] at h2
        rw [h2]
        simp only [Bool.false_eq_true, if_false]
        rw [hext, alookup_dictWrite_self]
    · have hext : (addItem cfg c st item).exts = st.exts ∨
          (addItem cfg c st item).exts = dictWrite st.exts item c := by
        rw [addItem]
        split_ifs <;> simp
      have hlk : alookup (addItem cfg c st item).exts e = alookup st.exts e := by
        rcases hext with h1 | h1
        · rw [h1]
        · rw [h1, alookup_dictWrite_ne _ _ _ _ (Ne.symm hi)]
      rw [hlk]
      have hm : memB (item :: g2) e = memB g2 e := by
        simp only [memB, List.any_cons]
        have : (item = e) = False := by simp [hi]
        simp [this]
      rw [hm]

theorem buildMaps_pins_lookup (cfg : Config) (gcolor : List String → String)
    (gs : List (List String)) (st : CMaps) (p : String) (hp : is_pin cfg p = true) :
    alookup (gs.foldl (addGroup cfg gcolor) st).pins p =
      (alookup st.pins p).or
        (Option.map gcolor (gs.find? (fun g => memB g p))) := by
  induction gs generalizing st with
  | nil => simp
  | cons g gs2 ih =>
    rw [List.foldl_cons, ih]
    have hinner := addItems_pins_lookup cfg (gcolor g) g st p hp
    rw [addGroup] at *
    rw [hinner, Option.or_assoc]
    congr 1
    rw [List.find?_cons]
    by_cases hm : memB g p = true
    · rw [hm]
      simp
    · rw [Bool.not_eq_true] at hm
      rw [hm]
      simp

theorem buildMaps_exts_lookup (cfg : Config) (gcolor : List String → String)
    (gs : List (List String)) (st : CMaps) (e : String)
    (he1 : is_pin cfg e = false) (he2 : is_grid_definition e = false)
    (he3 : is_e2e_pin_definition e = false) :
    alookup (gs.foldl (addGroup cfg gcolor) st).exts e =
      (Option.map gcolor (gs.reverse.find? (fun g => memB g e))).or
        (alookup st.exts e) := by
  induction gs generalizing st with
  | nil => simp
  | cons g gs2 ih =>
    rw [List.foldl_cons, ih]
    have hinner := addItems_exts_lookup cfg (gcolor g) g st e he1 he2 he3
    rw [addGroup] at *
    rw [hinner]
    rw [List.reverse_cons, List.find?_append]
    by_cases hfind : (gs2.reverse.find? (fun g => memB g e)).isSome
    · rcases Option.isSome_iff_exists.mp hfind with ⟨g2, hg2⟩
      rw [hg2]
      simp
    · rw [Option.not_isSome_iff_eq_none] at hfind
      rw [hfind]
      simp only [Option.none_or, List.find?_singleton]
      by_cases hm : memB g e = true
      · rw [hm]
        simp [hm]
      · rw [Bool.not_eq_true] at hm
        rw [hm]
        simp [hm]

/-- C4 counterexample: the external-to-color map is not populated with
set-if-absent semantics.  With declared terminal G and the two groups
[G, P1+] and [P1+], the highest-priority group containing P1+ gets palette
color 0, yet the map ends up holding palette color 1 from the
lower-priority group, because the external map write is unconditional. -/
theorem calculate_global_colors_external_overwritten :
    alookup (calculate_global_colors ⟨[], ["G"]⟩ [["G", "P1+"], ["P1+"]]
      [] [] 8).external_color_map "P1+" = some "\x1b[42m" ∧
    (priority_sorted ⟨[], ["G"]⟩ [["G", "P1+"], ["P1+"]]).find?
      (fun g => memB g "P1+") = some ["G", "P1+"] ∧
    group_to_color [["G", "P1+"], ["P1+"]] ["G", "P1+"] = "\x1b[41m" ∧
    "\x1b[42m" ≠ "\x1b[41m" := by
  decide

/-- C4 amended: groups are iterated in priority order (E2E groups first,
then groups with an external item, then pure-pin groups); the pin-to-color
map is populated set-if-absent, so a pin in several groups keeps the color
of the first group in priority order containing it; the external-to-color
map is written unconditionally, so an external element keeps the color of
the last group in priority order containing it. -/
theorem calculate_global_colors_maps (cfg : Config) (groups : List (List String))
    (mc : List (String × List (String × Nat × Nat)))
    (sp : List (String × List String)) (w : Nat) :
    (priority_sorted cfg groups).Pairwise
      (fun g h => group_priority_key cfg g ≤ group_priority_key cfg h) ∧
    (∀ p, is_pin cfg p = true →
      alookup (calculate_global_colors cfg groups mc sp w).pin_color_map p =
        Option.map (group_to_color groups)
          ((priority_sorted cfg groups).find? (fun g => memB g p))) ∧
    (∀ e, is_pin cfg e = false → is_grid_definition e = false →
      is_e2e_pin_definition e = false →
      alookup (calculate_global_colors cfg groups mc sp w).external_color_map e =
        Option.map (group_to_color groups)
          ((priority_sorted cfg groups).reverse.find? (fun g => memB g e))) := by
  refine ⟨?_, ?_, ?_⟩
  · have := @sortBy_pairwise (List String)
      (fun g h : List String =>
        decide (group_priority_key cfg g ≤ group_priority_key cfg h))
      (fun a b => by simp only [decide_eq_true_eq]; omega)
      (fun a b c h1 h2 => by
        simp only [decide_eq_true_eq] at h1 h2 ⊢
        omega) groups
    exact this.imp (by simp only [decide_eq_true_eq]; exact fun h => h)
  · intro p hp
    have := buildMaps_pins_lookup cfg (group_to_color groups)
      (priority_sorted cfg groups) ⟨[], [], []⟩ p hp
    simpa [calculate_global_colors, buildMaps, alookup] using this
  · intro e he1 he2 he3
    have := buildMaps_exts_lookup cfg (group_to_color groups)
      (priority_sorted cfg groups) ⟨[], [], []⟩ e he1 he2 he3
    simpa [calculate_global_colors, buildMaps, alookup] using this

/-- Witness for the amended C4 at a concrete configuration with a pin and
an external element shared between two groups. -/
theorem calculate_global_colors_maps_witness :
    (alookup (calculate_global_colors ⟨["A"], ["G"]⟩
        [["G", "P1+"], ["A1", "P1+"]] [] [] 8).pin_color_map "A1" =
      Option.map (group_to_color [["G", "P1+"], ["A1", "P1+"]])
        ((priority_sorted ⟨["A"], ["G"]⟩ [["G", "P1+"], ["A1", "P1+"]]).find?
          (fun g => memB g "A1"))) ∧
    (alookup (calculate_global_colors ⟨["A"], ["G"]⟩
        [["G", "P1+"], ["A1", "P1+"]] [] [] 8).external_color_map "P1+" =
      Option.map (group_to_color [["G", "P1+"], ["A1", "P1+"]])
        ((priority_sorted ⟨["A"], ["G"]⟩
          [["G", "P1+"], ["A1", "P1+"]]).reverse.find? (fun g => memB g "P1+"))) :=
  ⟨(calculate_global_colors_maps ⟨["A"], ["G"]⟩ [["G", "P1+"], ["A1", "P1+"]]
      [] [] 8).2.1 "A1" (by decide),
   (calculate_global_colors_maps ⟨["A"], ["G"]⟩ [["G", "P1+"], ["A1", "P1+"]]
      [] [] 8).2.2 "P1+" (by decide) (by decide) (by decide)⟩

/-! ### The Part 4 short analyzer of process_and_output_charts -/

/-- The non-switch-pin items of a group set: not a pin and not a grid
definition; e2epins-definition tokens are not excluded here, matching the
source. -/
def allNonPin (cfg : Config) (g : List String) : List String :=
  (dedupList g).filter (fun x => !is_pin cfg x && !is_grid_definition x)

/-- The transient (P-) elements among the non-pin items of a group. -/
def pElems (cfg : Config) (g : List String) : List String :=
  (allNonPin cfg g).filter (is_p_element cfg)

/-- The declared E2E pins present in a group, in declaration order. -/
def presentE2E (cfg : Config) (g : List String) : List String :=
  cfg.e2ePins.filter (fun t => memB g t)

/-- Record one shorted-to target under terminal t, if absent, with its
color. -/
def shortsAdd (sm : List (String × List (String × String)))
    (t item color : String) : List (String × List (String × String)) :=
  sm.map (fun p =>
    if p.1 = t then
      (p.1, if (alookup p.2 item).isSome then p.2 else p.2 ++ [(item, color)])
    else p)

/-- Record one non-pin item as shorted to terminal t, skipping the
terminal itself; the color comes from the external color map with the
neutral background as default. -/
def shortsAddItem (t : String) (extColor : List (String × String))
    (sm : List (String × List (String × String))) (item : String) :
    List (String × List (String × String)) :=
  if item ≠ t then
    shortsAdd sm t item ((alookup extColor item).getD NEUTRAL_BACKGROUND)
  else sm

/-- Record the shorts of one group: under each declared terminal present
in the group, every other non-pin item of the group. -/
def shortsOfGroup (cfg : Config) (extColor : List (String × String))
    (sm : List (String × List (String × String))) (g : List String) :
    List (String × List (String × String)) :=
  (presentE2E cfg g).foldl (fun sm1 t =>
    (allNonPin cfg g).foldl (shortsAddItem t extColor) sm1) sm

/-- The Part 4 analysis results: the terminal shorts map, the candidate
isolated P-groups and the finally reported isolated groups. -/
structure ShortAnalysis where
  e2e_shorts_map : List (String × List (String × String))
  isolated_p_groups : List (List String)
  printable_isolated_groups : List (List String)
deriving DecidableEq, Repr

/-- All targets appearing in the shorts map of any terminal. -/
def allTargets (sm : List (String × List (String × String))) : List String :=
  (sm.map (fun p => p.2.map (fun q => q.1))).flatten

/-- Model of the Part 4 loop: build the terminal shorts map over all
groups, collect candidate isolated P-groups (every non-pin item a
transient element, no declared terminal present, more than one transient),
then report only candidates none of whose members is a target of any
terminal. -/
def part4_short_analysis (cfg : Config) (groups : List (List String))
    (extColor : List (String × String)) : ShortAnalysis :=
  let sm := groups.foldl (shortsOfGroup cfg extColor)
    (cfg.e2ePins.map (fun t => (t, ([] : List (String × String)))))
  let isolated := groups.foldl (fun acc g =>
    if (pElems cfg g).length = (allNonPin cfg g).length ∧
        presentE2E cfg g = [] ∧ 1 < (pElems cfg g).length then
      acc ++ [pElems cfg g]
    else acc) []
  let printable := isolated.foldl (fun acc g =>
    if g.all (fun item => !memB (allTargets sm) item) then
      acc ++ [sortBy upperLe g]
    else acc) []
  ⟨sm, isolated, printable⟩

theorem alookup_isSome_iff {β : Type} {m : List (String × β)} {k : String} :
    (alookup m k).isSome = true ↔ k ∈ m.map Prod.fst := by
  induction m with
  | nil => simp [alookup]
  | cons p rest ih =>
    rcases p with ⟨k2, v2⟩
    simp only [alookup, List.map_cons, List.mem_cons]
    by_cases hk : k = k2
    · simp [hk]
    · simp [hk, ih]

theorem shortsAdd_keys (sm : List (String × List (String × String)))
    (t item color : String) :
    (shortsAdd sm t item color).map Prod.fst = sm.map Prod.fst := by
  rw [shortsAdd, List.map_map]
  refine List.map_congr_left ?_
  intro p _
  by_cases h : p.1 = t <;> simp [h]

theorem mem_allTargets_iff_entry {sm : List (String × List (String × String))}
    {m : String} :
    m ∈ allTargets sm ↔ ∃ e ∈ sm, m ∈ e.2.map Prod.fst := by
  simp only [allTargets, List.mem_flatten, List.mem_map]
  constructor
  · rintro ⟨l, ⟨e, he, rfl⟩, hm⟩
    exact ⟨e, he, by simpa using hm⟩
  · rintro ⟨e, he, hm⟩
    exact ⟨e.2.map Prod.fst, ⟨e, he, rfl⟩, by simpa using hm⟩

theorem mem_allTargets_shortsAdd {sm : List (String × List (String × String))}
    {t item color m : String} :
    m ∈ allTargets (shortsAdd sm t item color) ↔
      m ∈ allTargets sm ∨ (m = item ∧ t ∈ sm.map Prod.fst) := by
  induction sm with
  | nil => simp [shortsAdd, allTargets]
  | cons p rest ih =>
    rcases p with ⟨k, lst⟩
    simp only [shortsAdd, List.map_cons] at ih ⊢
    simp only [mem_allTargets_iff_entry] at ih ⊢
    simp only [List.mem_cons, List.map_cons]
    by_cases hk : k = t
    · rw [if_pos hk]
      by_cases habs : (alookup lst item).isSome = true
      · rw [if_pos habs]
        have hit : item ∈ lst.map Prod.fst := alookup_isSome_iff.mp habs
        constructor
        · rintro ⟨e, he | he, hm⟩
          · subst he
            exact Or.inl ⟨(k, lst), Or.inl rfl, hm⟩
          · rcases ih.mp ⟨e, he, hm⟩ with h1 | h1
            · rcases h1 with ⟨e2, he2, hm2⟩
              exact Or.inl ⟨e2, Or.inr he2, hm2⟩
            · exact Or.inr ⟨h1.1, Or.inr h1.2⟩
        · rintro (⟨e, he | he, hm⟩ | ⟨rfl, _⟩)
          · subst he
            exact ⟨(k, lst), Or.inl rfl, hm⟩
          · rcases ih.mpr (Or.inl ⟨e, he, hm⟩) with ⟨e2, he2, hm2⟩
            exact ⟨e2, Or.inr he2, hm2⟩
          · exact ⟨(k, lst), Or.inl rfl, by simpa using hit⟩
      · rw [if_neg habs]
        constructor
        · rintro ⟨e, he | he, hm⟩
          · subst he
            simp only [List.map_append, List.mem_append] at hm
            rcases hm with hm | hm
            · exact Or.inl ⟨(k, lst), Or.inl rfl, hm⟩
            · simp only [List.map_cons, List.map_nil, List.mem_singleton] at hm
              exact Or.inr ⟨hm, Or.inl hk.symm⟩
          · rcases ih.mp ⟨e, he, hm⟩ with h1 | h1
            · rcases h1 with ⟨e2, he2, hm2⟩
              exact Or.inl ⟨e2, Or.inr he2, hm2⟩
            · exact Or.inr ⟨h1.1, Or.inr h1.2⟩
        · rintro (⟨e, he | he, hm⟩ | ⟨hmi, _⟩)
          · subst he
            refine ⟨(k, lst ++ [(item, color)]), Or.inl rfl, ?_⟩
            simp only [List.map_append, List.mem_append]
            exact Or.inl hm
          · rcases ih.mpr (Or.inl ⟨e, he, hm⟩) with ⟨e2, he2, hm2⟩
            exact ⟨e2, Or.inr he2, hm2⟩
          · refine ⟨(k, lst ++ [(item, color)]), Or.inl rfl, ?_⟩
            simp [List.map_append, hmi]
    · rw [if_neg hk]
      constructor
      · rintro ⟨e, he | he, hm⟩
        · subst he
          exact Or.inl ⟨(k, lst), Or.inl rfl, hm⟩
        · rcases ih.mp ⟨e, he, hm⟩ with h1 | h1
          · rcases h1 with ⟨e2, he2, hm2⟩
            exact Or.inl ⟨e2, Or.inr he2, hm2⟩
          · exact Or.inr ⟨h1.1, Or.inr h1.2⟩
      · rintro (⟨e, he | he, hm⟩ | ⟨rfl, ht⟩)
        · subst he
          exact ⟨(k, lst), Or.inl rfl, hm⟩
        · rcases ih.mpr (Or.inl ⟨e, he, hm⟩) with ⟨e2, he2, hm2⟩
          exact ⟨e2, Or.inr he2, hm2⟩
        · rcases ht with ht | ht
          · exact absurd ht.symm hk
          · rcases ih.mpr (Or.inr ⟨rfl, ht⟩) with ⟨e2, he2, hm2⟩
            exact ⟨e2, Or.inr he2, hm2⟩

theorem shortsAddItem_keys (t : String) (ec : List (String × String))
    (sm : List (String × List (String × String))) (item : String) :
    (shortsAddItem t ec sm item).map Prod.fst = sm.map Prod.fst := by
  rw [shortsAddItem]
  split_ifs
  · exact shortsAdd_keys sm t item _
  · rfl

theorem itemsFold_keys (t : String) (ec : List (String × String)) :
    ∀ (items : List String) (sm : List (String × List (String × String))),
      ((items.foldl (shortsAddItem t ec) sm).map Prod.fst) = sm.map Prod.fst := by
  intro items
  induction items with
  | nil => intro sm; rfl
  | cons item rest ih =>
    intro sm
    rw [List.foldl_cons, ih, shortsAddItem_keys]

theorem mem_targets_itemsFold (t : String) (ec : List (String × String))
    (m : String) :
    ∀ (items : List String) (sm : List (String × List (String × String))),
      m ∈ allTargets (items.foldl (shortsAddItem t ec) sm) ↔
        m ∈ allTargets sm ∨ (m ∈ items ∧ m ≠ t ∧ t ∈ sm.map Prod.fst) := by
  intro items
  induction items with
  | nil => intro sm; simp
  | cons item rest ih =>
    intro sm
    rw [List.foldl_cons, ih, shortsAddItem_keys]
    rw [shortsAddItem]
    by_cases hit : item ≠ t
    · rw [if_pos hit, mem_allTargets_shortsAdd]
      simp only [List.mem_cons]
      constructor
      · rintro ((h | ⟨rfl, hk⟩) | ⟨h1, h2, h3⟩)
        · exact Or.inl h
        · exact Or.inr ⟨Or.inl rfl, hit, hk⟩
        · exact Or.inr ⟨Or.inr h1, h2, h3⟩
      · rintro (h | ⟨h1 | h1, h2, h3⟩)
        · exact Or.inl (Or.inl h)
        · exact Or.inl (Or.inr ⟨h1, h3⟩)
        · exact Or.inr ⟨h1, h2, h3⟩
    · rw [if_neg hit]
      rw [Ne, not_not] at hit
      subst hit
      simp only [List.mem_cons]
      constructor
      · rintro (h | ⟨h1, h2, h3⟩)
        · exact Or.inl h
        · exact Or.inr ⟨Or.inr h1, h2, h3⟩
      · rintro (h | ⟨h1 | h1, h2, h3⟩)
        · exact Or.inl h
        · exact absurd h1 h2
        · exact Or.inr ⟨h1, h2, h3⟩

theorem shortsOfGroup_keys (cfg : Config) (ec : List (String × String))
    (g : List String) :
    ∀ (ts : List String) (sm : List (String × List (String × String))),
      ((ts.foldl (fun sm1 t => (allNonPin cfg g).foldl (shortsAddItem t ec) sm1)
        sm).map Prod.fst) = sm.map Prod.fst := by
  intro ts
  induction ts with
  | nil => intro sm; rfl
  | cons t rest ih =>
    intro sm
    rw [List.foldl_cons, ih, itemsFold_keys]

theorem mem_targets_terminalsFold (cfg : Config) (ec : List (String × String))
    (g : List String) (m : String) :
    ∀ (ts : List String) (sm : List (String × List (String × String))),
      m ∈ allTargets (ts.foldl
        (fun sm1 t => (allNonPin cfg g).foldl (shortsAddItem t ec) sm1) sm) ↔
        m ∈ allTargets sm ∨
          ∃ t ∈ ts, m ∈ allNonPin cfg g ∧ m ≠ t ∧ t ∈ sm.map Prod.fst := by
  intro ts
  induction ts with
  | nil => intro sm; simp
  | cons t rest ih =>
    intro sm
    rw [List.foldl_cons, ih, itemsFold_keys, mem_targets_itemsFold]
    simp only [List.mem_cons]
    constructor
    · rintro ((h | ⟨h1, h2, h3⟩) | ⟨t2, ht2, h1, h2, h3⟩)
      · exact Or.inl h
      · exact Or.inr ⟨t, Or.inl rfl, h1, h2, h3⟩
      · exact Or.inr ⟨t2, Or.inr ht2, h1, h2, h3⟩
    · rintro (h | ⟨t2, ht2 | ht2, h1, h2, h3⟩)
      · exact Or.inl (Or.inl h)
      · subst ht2
        exact Or.inl (Or.inr ⟨h1, h2, h3⟩)
      · exact Or.inr ⟨t2, ht2, h1, h2, h3⟩

theorem mem_targets_groupsFold (cfg : Config) (ec : List (String × String))
    (m : String) :
    ∀ (groups : List (List String)) (sm : List (String × List (String × String))),
      m ∈ allTargets (groups.foldl (shortsOfGroup cfg ec) sm) ↔
        m ∈ allTargets sm ∨
          ∃ g ∈ groups, ∃ t ∈ presentE2E cfg g,
            m ∈ allNonPin cfg g ∧ m ≠ t ∧ t ∈ sm.map Prod.fst := by
  intro groups
  induction groups with
  | nil => intro sm; simp
  | cons g rest ih =>
    intro sm
    rw [List.foldl_cons, ih]
    rw [show shortsOfGroup cfg ec sm g = (presentE2E cfg g).foldl
      (fun sm1 t => (allNonPin cfg g).foldl (shortsAddItem t ec) sm1) sm from rfl]
    rw [mem_targets_terminalsFold, shortsOfGroup_keys]
    simp only [List.mem_cons]
    constructor
    · rintro ((h | ⟨t, ht, h1, h2, h3⟩) | ⟨g2, hg2, t, ht, h1, h2, h3⟩)
      · exact Or.inl h
      · exact Or.inr ⟨g, Or.inl rfl, t, ht, h1, h2, h3⟩
      · exact Or.inr ⟨g2, Or.inr hg2, t, ht, h1, h2, h3⟩
    · rintro (h | ⟨g2, hg2 | hg2, t, ht, h1, h2, h3⟩)
      · exact Or.inl (Or.inl h)
      · subst hg2
        exact Or.inl (Or.inr ⟨t, ht, h1, h2, h3⟩)
      · exact Or.inr ⟨g2, hg2, t, ht, h1, h2, h3⟩

theorem targets_init (ts : List String) :
    allTargets (ts.map (fun t => (t, ([] : List (String × String))))) = [] := by
  induction ts with
  | nil => rfl
  | cons t rest _ih => simp [allTargets]

theorem init_keys (ts : List String) :
    (ts.map (fun t => (t, ([] : List (String × String))))).map Prod.fst = ts := by
  rw [List.map_map]
  exact List.map_id ts

theorem mem_targets_part4 (cfg : Config) (groups : List (List String))
    (ec : List (String × String)) (m : String) :
    m ∈ allTargets ((part4_short_analysis cfg groups ec).e2e_shorts_map) ↔
      ∃ g ∈ groups, ∃ t ∈ cfg.e2ePins,
        memB g t = true ∧ m ∈ allNonPin cfg g ∧ m ≠ t := by
  rw [show (part4_short_analysis cfg groups ec).e2e_shorts_map =
    groups.foldl (shortsOfGroup cfg ec)
      (cfg.e2ePins.map (fun t => (t, ([] : List (String × String))))) from rfl]
  rw [mem_targets_groupsFold, targets_init, init_keys]
  simp only [List.not_mem_nil, false_or, presentE2E, List.mem_filter]
  constructor
  · rintro ⟨g, hg, t, ⟨ht1, ht2⟩, h1, h2, _⟩
    exact ⟨g, hg, t, ht1, ht2, h1, h2⟩
  · rintro ⟨g, hg, t, ht1, ht2, h1, h2⟩
    exact ⟨g, hg, t, ⟨ht1, ht2⟩, h1, h2, ht1⟩

theorem foldl_guard_append_mem {α β : Type} {P : α → Prop} [DecidablePred P]
    {f : α → β} :
    ∀ (l : List α) (init : List β) (x : β),
      x ∈ l.foldl (fun acc g => if P g then acc ++ [f g] else acc) init ↔
        x ∈ init ∨ ∃ g ∈ l, P g ∧ x = f g := by
  intro l
  induction l with
  | nil => intro init x; simp
  | cons g rest ih =>
    intro init x
    rw [List.foldl_cons, ih]
    by_cases hp : P g
    · rw [if_pos hp]
      simp only [List.mem_append, List.mem_singleton, List.mem_cons,
        List.not_mem_nil, or_false]
      constructor
      · rintro ((h | h) | ⟨g2, hg2, h1, h2⟩)
        · exact Or.inl h
        · exact Or.inr ⟨g, Or.inl rfl, hp, h⟩
        · exact Or.inr ⟨g2, Or.inr hg2, h1, h2⟩
      · rintro (h | ⟨g2, hg2 | hg2, h1, h2⟩)
        · exact Or.inl (Or.inl h)
        · subst hg2
          exact Or.inl (Or.inr h2)
        · exact Or.inr ⟨g2, hg2, h1, h2⟩
    · rw [if_neg hp]
      simp only [List.mem_cons]
      constructor
      · rintro (h | ⟨g2, hg2, h1, h2⟩)
        · exact Or.inl h
        · exact Or.inr ⟨g2, Or.inr hg2, h1, h2⟩
      · rintro (h | ⟨g2, hg2 | hg2, h1, h2⟩)
        · exact Or.inl h
        · subst hg2
          exact absurd h1 hp
        · exact Or.inr ⟨g2, hg2, h1, h2⟩

theorem pElems_nodup (cfg : Config) (g : List String) : (pElems cfg g).Nodup :=
  ((dedupList_nodup g).filter _).filter _

theorem target_not_pin {cfg : Config} {groups : List (List String)}
    {ec : List (String × String)} {m : String}
    (h : m ∈ allTargets ((part4_short_analysis cfg groups ec).e2e_shorts_map)) :
    is_pin cfg m = false ∧ is_grid_definition m = false := by
  rcases (mem_targets_part4 cfg groups ec m).mp h with ⟨g, _, t, _, _, hmnp, _⟩
  have := (List.mem_filter.mp hmnp).2
  simp only [Bool.and_eq_true] at this
  constructor
  · simpa using this.1
  · simpa using this.2

/-- C3: a group all of whose non-pin members are transient elements,
holding more than one transient element, is reported as an isolated
transient-element group iff no declared terminal is present in the group
and no member of the group appears anywhere in the global shorted-to map
as the target of any declared terminal. -/
theorem isolated_group_reported_iff (cfg : Config) (groups : List (List String))
    (ec : List (String × String)) (G : List String) (hG : G ∈ groups)
    (hall : ∀ x ∈ allNonPin cfg G, is_p_element cfg x = true)
    (hcount : 1 < (pElems cfg G).length) :
    sortBy upperLe (pElems cfg G) ∈
      (part4_short_analysis cfg groups ec).printable_isolated_groups ↔
      (presentE2E cfg G = [] ∧
        ∀ m ∈ G, m ∉ allTargets
          ((part4_short_analysis cfg groups ec).e2e_shorts_map)) := by
  have hpe : (allNonPin cfg G).filter (is_p_element cfg) = allNonPin cfg G :=
    List.filter_eq_self.mpr hall
  have hiso : (part4_short_analysis cfg groups ec).isolated_p_groups =
      groups.foldl (fun acc g =>
        if (pElems cfg g).length = (allNonPin cfg g).length ∧
            presentE2E cfg g = [] ∧ 1 < (pElems cfg g).length then
          acc ++ [pElems cfg g]
        else acc) [] := rfl
  have hprint : (part4_short_analysis cfg groups ec).printable_isolated_groups =
      ((part4_short_analysis cfg groups ec).isolated_p_groups).foldl
        (fun acc g =>
          if g.all (fun item => !memB
              (allTargets ((part4_short_analysis cfg groups ec).e2e_shorts_map))
              item) = true then
            acc ++ [sortBy upperLe g]
          else acc) [] := rfl
  rw [hprint, foldl_guard_append_mem, hiso]
  constructor
  · rintro (hc | ⟨I, hI, hQ, hEq⟩)
    · exact absurd hc (List.not_mem_nil _)
    · have hmemI : ∀ y, y ∈ I ↔ y ∈ pElems cfg G := by
        intro y
        rw [← @mem_sortBy String upperLe I y, ← hEq, mem_sortBy]
      have hQ2 : ∀ y ∈ I, memB
          (allTargets ((part4_short_analysis cfg groups ec).e2e_shorts_map))
          y = false := by
        intro y hy
        have := List.all_eq_true.mp hQ y hy
        simpa using this
      have hnotarget : ∀ y ∈ pElems cfg G, y ∉ allTargets
          ((part4_short_analysis cfg groups ec).e2e_shorts_map) := by
        intro y hy hc
        have := hQ2 y ((hmemI y).mpr hy)
        rw [Bool.eq_false_iff] at this
        exact this (memB_iff.mpr hc)
      constructor
      · by_contra hne
        rcases List.exists_mem_of_ne_nil _ hne with ⟨t, ht⟩
        rcases List.mem_filter.mp ht with ⟨ht1, ht2⟩
        have hne2 : pElems cfg G ≠ [] := by
          intro hnil
          rw [hnil] at hcount
          simp at hcount
        rcases List.exists_mem_of_ne_nil _ hne2 with ⟨m, hm⟩
        rcases List.mem_filter.mp hm with ⟨hmnp, hmp⟩
        have hmt : m ≠ t := by
          intro hc
          subst hc
          simp only [is_p_element, Bool.and_eq_true] at hmp
          have h2 := hmp.2
          simp only [Bool.not_eq_true', List.any_eq_false,
            decide_eq_true_eq] at h2
          exact h2 m ht1 rfl
        refine hnotarget m hm ?_
        exact (mem_targets_part4 cfg groups ec m).mpr
          ⟨G, hG, t, ht1, ht2, hmnp, hmt⟩
      · intro m hm hc
        rcases target_not_pin hc with ⟨hp1, hp2⟩
        have hmnp : m ∈ allNonPin cfg G := by
          rw [allNonPin, List.mem_filter]
          exact ⟨mem_dedupList.mpr hm, by simp [hp1, hp2]⟩
        have hmp : m ∈ pElems cfg G := by
          rw [pElems, List.mem_filter]
          exact ⟨hmnp, hall m hmnp⟩
        exact hnotarget m hmp hc
  · rintro ⟨hpe2, hnt⟩
    refine Or.inr ⟨pElems cfg G, ?_, ?_, rfl⟩
    · rw [foldl_guard_append_mem]
      refine Or.inr ⟨G, hG, ⟨?_, hpe2, hcount⟩, rfl⟩
      rw [pElems, hpe]
    · rw [List.all_eq_true]
      intro y hy
      have hyG : y ∈ G := by
        rcases List.mem_filter.mp hy with ⟨hynp, _⟩
        exact mem_dedupList.mp (List.mem_filter.mp hynp).1
      have := hnt y hyG
      cases hmb : memB
          (allTargets ((part4_short_analysis cfg groups ec).e2e_shorts_map)) y with
      | false => simp [hmb]
      | true => exact absurd (memB_iff.mp hmb) this

/-- Witness for C3 at the spec example: the group [P1+, P2-] with no
terminal anywhere is reported as an isolated transient-element group. -/
theorem isolated_group_reported_iff_witness :
    sortBy upperLe (pElems ⟨["A"], ["G", "T"]⟩ ["P1+", "P2-"]) ∈
      (part4_short_analysis ⟨["A"], ["G", "T"]⟩ [["P1+", "P2-"], ["A3"]]
        []).printable_isolated_groups ↔
      (presentE2E ⟨["A"], ["G", "T"]⟩ ["P1+", "P2-"] = [] ∧
        ∀ m ∈ ["P1+", "P2-"], m ∉ allTargets
          ((part4_short_analysis ⟨["A"], ["G", "T"]⟩ [["P1+", "P2-"], ["A3"]]
            []).e2e_shorts_map)) :=
  isolated_group_reported_iff ⟨["A"], ["G", "T"]⟩ [["P1+", "P2-"], ["A3"]] []
    ["P1+", "P2-"] (by decide) (by decide) (by decide)

/-! ### The chart cloning step: build_colored_grid_lines over a store of
line-list objects -/

/-- A heap of line-list objects: each Python list object holding grid
lines is addressed by its allocation index. -/
structure LineStore where
  objs : List (List String)
deriving DecidableEq, Repr

/-- Read the list object behind a reference. -/
def readObj (st : LineStore) (r : Nat) : List String := st.objs.getD r []

/-- Mutate the list object behind a reference in place. -/
def writeObj (st : LineStore) (r : Nat) (v : List String) : LineStore :=
  ⟨st.objs.set r v⟩

/-- Allocate a fresh object holding v, returning its reference. -/
def allocObj (st : LineStore) (v : List String) : LineStore × Nat :=
  (⟨st.objs ++ [v]⟩, st.objs.length)

/-- The reference a prefix maps to in a prefix-to-object table. -/
def refOf (tbl : List (String × Nat)) (p : String) : Nat :=
  (alookup tbl p).getD 0

/-- The cloning comprehension of build_colored_grid_lines: one fresh copy
of the base object per grid prefix. -/
def cloneRefs (st : LineStore) (base : List (String × Nat)) :
    List String → LineStore × List (String × Nat)
  | [] => (st, [])
  | p :: ps =>
      let a := allocObj st (readObj st (refOf base p))
      let rest := cloneRefs a.1 base ps
      (rest.1, (p, a.2) :: rest.2)

/-- The consolidated operations belonging to one prefix, stripped of the
prefix component, in input order. -/
def opsForPrefix (ops : List (Nat × Nat × String × String)) (p : String) :
    List (Nat × Nat × String) :=
  (ops.filter (fun o => o.2.2.2 = p)).map (fun o => (o.1, o.2.1, o.2.2.1))

/-- The coloring loop of build_colored_grid_lines: apply_coloring mutates
the cloned object of each prefix in place. -/
def applyAll (ops : List (Nat × Nat × String × String))
    (colored : List (String × Nat)) : LineStore → List String → LineStore
  | st, [] => st
  | st, p :: ps =>
      applyAll ops colored
        (writeObj st (refOf colored p)
          (apply_coloring (readObj st (refOf colored p)) (opsForPrefix ops p)))
        ps

/-- Model of build_colored_grid_lines: clone the base object of every
configured prefix, then apply the coloring operations of each prefix to
its clone; returns the store after the call and the clone table. -/
def build_colored_grid_lines (cfg : Config) (st : LineStore)
    (base : List (String × Nat)) (ops : List (Nat × Nat × String × String)) :
    LineStore × List (String × Nat) :=
  let c := cloneRefs st base cfg.gridPrefixes
  (applyAll ops c.2 c.1 cfg.gridPrefixes, c.2)

theorem readObj_writeObj_ne (st : LineStore) (r i : Nat) (v : List String)
    (h : r ≠ i) : readObj (writeObj st r v) i = readObj st i := by
  simp [readObj, writeObj, List.getD_eq_getElem?_getD, List.getElem?_set_ne h]

theorem readObj_writeObj_self (st : LineStore) (r : Nat) (v : List String)
    (h : r < st.objs.length) : readObj (writeObj st r v) r = v := by
  simp [readObj, writeObj, List.getD_eq_getElem?_getD, List.getElem?_set_self, h]

theorem writeObj_length (st : LineStore) (r : Nat) (v : List String) :
    (writeObj st r v).objs.length = st.objs.length := by
  simp [writeObj]

theorem readObj_allocObj_old (st : LineStore) (v : List String) (i : Nat)
    (h : i < st.objs.length) : readObj (allocObj st v).1 i = readObj st i := by
  simp only [readObj, allocObj]
  exact List.getD_append _ _ _ _ h

theorem readObj_allocObj_new (st : LineStore) (v : List String) :
    readObj (allocObj st v).1 st.objs.length = v := by
  simp [readObj, allocObj, List.getD_append_right]

theorem cloneRefs_len (base : List (String × Nat)) :
    ∀ (ps : List String) (st : LineStore),
      (cloneRefs st base ps).1.objs.length = st.objs.length + ps.length := by
  intro ps
  induction ps with
  | nil => intro st; rfl
  | cons p ps2 ih =>
    intro st
    rw [show cloneRefs st base (p :: ps2) =
      ((cloneRefs (allocObj st (readObj st (refOf base p))).1 base ps2).1,
        (p, (allocObj st (readObj st (refOf base p))).2) ::
          (cloneRefs (allocObj st (readObj st (refOf base p))).1 base ps2).2)
      from rfl]
    simp only [ih, allocObj, List.length_append, List.length_cons,
      List.length_singleton, List.length_nil]
    omega

theorem cloneRefs_preserve (base : List (String × Nat)) :
    ∀ (ps : List String) (st : LineStore) (i : Nat), i < st.objs.length →
      readObj (cloneRefs st base ps).1 i = readObj st i := by
  intro ps
  induction ps with
  | nil => intro st i _; rfl
  | cons p ps2 ih =>
    intro st i hi
    rw [show (cloneRefs st base (p :: ps2)).1 =
      (cloneRefs (allocObj st (readObj st (refOf base p))).1 base ps2).1 from rfl]
    rw [ih _ i (by simp [allocObj]; omega), readObj_allocObj_old _ _ _ hi]

theorem cloneRefs_entries (base : List (String × Nat)) :
    ∀ (ps : List String) (st : LineStore),
      (∀ p ∈ ps, refOf base p < st.objs.length) →
      ∀ e ∈ (cloneRefs st base ps).2,
        e.1 ∈ ps ∧ st.objs.length ≤ e.2 ∧
        e.2 < (cloneRefs st base ps).1.objs.length ∧
        readObj (cloneRefs st base ps).1 e.2 = readObj st (refOf base e.1) := by
  intro ps
  induction ps with
  | nil => intro st _ e he; simp [cloneRefs] at he
  | cons p ps2 ih =>
    intro st hv e he
    rw [show (cloneRefs st base (p :: ps2)).2 =
      (p, (allocObj st (readObj st (refOf base p))).2) ::
        (cloneRefs (allocObj st (readObj st (refOf base p))).1 base ps2).2
      from rfl] at he
    rw [show (cloneRefs st base (p :: ps2)).1 =
      (cloneRefs (allocObj st (readObj st (refOf base p))).1 base ps2).1 from rfl]
    rcases List.mem_cons.mp he with rfl | he2
    · refine ⟨List.mem_cons_self _ _, le_refl _, ?_, ?_⟩
      · rw [cloneRefs_len]
        simp only [allocObj, List.length_append, List.length_singleton]
        omega
      · rw [cloneRefs_preserve _ _ _ _ (by simp [allocObj])]
        exact readObj_allocObj_new st _
    · have hv2 : ∀ q ∈ ps2, refOf base q <
          (allocObj st (readObj st (refOf base p))).1.objs.length := by
        intro q hq
        have := hv q (.tail _ hq)
        simp only [allocObj, List.length_append, List.length_singleton]
        omega
      rcases ih _ hv2 e he2 with ⟨h0, h1, h2, h3⟩
      refine ⟨.tail _ h0, ?_, h2, ?_⟩
      · simp only [allocObj, List.length_append, List.length_singleton] at h1
        omega
      · rw [h3, readObj_allocObj_old]
        exact hv e.1 (.tail _ h0)

theorem cloneRefs_keys (base : List (String × Nat)) :
    ∀ (ps : List String) (st : LineStore),
      (cloneRefs st base ps).2.map Prod.fst = ps := by
  intro ps
  induction ps with
  | nil => intro st; rfl
  | cons p ps2 ih =>
    intro st
    rw [show (cloneRefs st base (p :: ps2)).2 =
      (p, (allocObj st (readObj st (refOf base p))).2) ::
        (cloneRefs (allocObj st (readObj st (refOf base p))).1 base ps2).2
      from rfl]
    rw [List.map_cons, ih]

theorem refOf_mem {tbl : List (String × Nat)} {p : String}
    (hp : p ∈ tbl.map Prod.fst) : (p, refOf tbl p) ∈ tbl := by
  rcases Option.isSome_iff_exists.mp (alookup_isSome_iff.mpr hp) with ⟨r, hr⟩
  have := mem_of_alookup hr
  simpa [refOf, hr] using this

theorem cloneRefs_refs_pairwise (base : List (String × Nat)) :
    ∀ (ps : List String) (st : LineStore),
      (∀ p ∈ ps, refOf base p < st.objs.length) →
      ((cloneRefs st base ps).2).Pairwise (fun a b => a.2 < b.2) := by
  intro ps
  induction ps with
  | nil => intro st _; simp [cloneRefs]
  | cons p ps2 ih =>
    intro st hv
    rw [show (cloneRefs st base (p :: ps2)).2 =
      (p, (allocObj st (readObj st (refOf base p))).2) ::
        (cloneRefs (allocObj st (readObj st (refOf base p))).1 base ps2).2
      from rfl]
    have hv2 : ∀ q ∈ ps2, refOf base q <
        (allocObj st (readObj st (refOf base p))).1.objs.length := by
      intro q hq
      have := hv q (.tail _ hq)
      simp only [allocObj, List.length_append, List.length_singleton]
      omega
    refine List.pairwise_cons.mpr ⟨?_, ih _ hv2⟩
    intro e he
    have := (cloneRefs_entries base ps2 _ hv2 e he).2.1
    simp only [allocObj, List.length_append, List.length_singleton] at this ⊢
    omega

theorem applyAll_untouched (ops : List (Nat × Nat × String × String))
    (colored : List (String × Nat)) :
    ∀ (ps : List String) (st : LineStore) (i : Nat),
      (∀ p ∈ ps, refOf colored p ≠ i) →
      readObj (applyAll ops colored st ps) i = readObj st i := by
  intro ps
  induction ps with
  | nil => intro st i _; rfl
  | cons p ps2 ih =>
    intro st i hne
    rw [show applyAll ops colored st (p :: ps2) = applyAll ops colored
      (writeObj st (refOf colored p)
        (apply_coloring (readObj st (refOf colored p)) (opsForPrefix ops p)))
      ps2 from rfl]
    rw [ih _ i (fun q hq => hne q (.tail _ hq)),
      readObj_writeObj_ne _ _ _ _ (hne p (List.mem_cons_self _ _))]

theorem applyAll_length (ops : List (Nat × Nat × String × String))
    (colored : List (String × Nat)) :
    ∀ (ps : List String) (st : LineStore),
      (applyAll ops colored st ps).objs.length = st.objs.length := by
  intro ps
  induction ps with
  | nil => intro st; rfl
  | cons p ps2 ih =>
    intro st
    rw [show applyAll ops colored st (p :: ps2) = applyAll ops colored
      (writeObj st (refOf colored p)
        (apply_coloring (readObj st (refOf colored p)) (opsForPrefix ops p)))
      ps2 from rfl]
    rw [ih, writeObj_length]

theorem applyAll_result (ops : List (Nat × Nat × String × String))
    (colored : List (String × Nat)) :
    ∀ (ps : List String) (st : LineStore),
      (∀ p ∈ ps, refOf colored p < st.objs.length) →
      (∀ p q, p ∈ ps → q ∈ ps → p ≠ q → refOf colored p ≠ refOf colored q) →
      ps.Nodup →
      ∀ p ∈ ps, readObj (applyAll ops colored st ps) (refOf colored p) =
        apply_coloring (readObj st (refOf colored p)) (opsForPrefix ops p) := by
  intro ps
  induction ps with
  | nil => intro st _ _ _ p hp; simp at hp
  | cons q ps2 ih =>
    intro st hval hdist hnd p hp
    rcases List.nodup_cons.mp hnd with ⟨hq, hnd2⟩
    rw [show applyAll ops colored st (q :: ps2) = applyAll ops colored
      (writeObj st (refOf colored q)
        (apply_coloring (readObj st (refOf colored q)) (opsForPrefix ops q)))
      ps2 from rfl]
    rcases List.mem_cons.mp hp with rfl | hp2
    · rw [applyAll_untouched]
      · exact readObj_writeObj_self _ _ _ (hval p (List.mem_cons_self _ _))
      · intro p2 hp2
        refine hdist p2 p (.tail _ hp2) (List.mem_cons_self _ _) ?_
        intro hc
        subst hc
        exact hq hp2
    · rw [ih _ ?_ ?_ hnd2 p hp2, readObj_writeObj_ne]
      · refine hdist q p (List.mem_cons_self _ _) (.tail _ hp2) ?_
        intro hc
        subst hc
        exact hq hp2
      · intro p2 hp2b
        rw [writeObj_length]
        exact hval p2 (.tail _ hp2b)
      · exact fun a b ha hb => hdist a b (.tail _ ha) (.tail _ hb)

theorem build_spec (cfg : Config) (st : LineStore) (base : List (String × Nat))
    (ops : List (Nat × Nat × String × String))
    (hv : ∀ p ∈ cfg.gridPrefixes, refOf base p < st.objs.length)
    (hnd : cfg.gridPrefixes.Nodup) :
    (∀ i < st.objs.length,
      readObj (build_colored_grid_lines cfg st base ops).1 i = readObj st i) ∧
    (∀ p ∈ cfg.gridPrefixes,
      readObj (build_colored_grid_lines cfg st base ops).1
          (refOf (build_colored_grid_lines cfg st base ops).2 p) =
        apply_coloring (readObj st (refOf base p)) (opsForPrefix ops p)) ∧
    (∀ p ∈ cfg.gridPrefixes,
      st.objs.length ≤ refOf (build_colored_grid_lines cfg st base ops).2 p ∧
      refOf (build_colored_grid_lines cfg st base ops).2 p <
        (build_colored_grid_lines cfg st base ops).1.objs.length) ∧
    (build_colored_grid_lines cfg st base ops).1.objs.length =
      st.objs.length + cfg.gridPrefixes.length := by
  have hb1 : (build_colored_grid_lines cfg st base ops).1 =
      applyAll ops (cloneRefs st base cfg.gridPrefixes).2
        (cloneRefs st base cfg.gridPrefixes).1 cfg.gridPrefixes := rfl
  have hb2 : (build_colored_grid_lines cfg st base ops).2 =
      (cloneRefs st base cfg.gridPrefixes).2 := rfl
  have hentry : ∀ p ∈ cfg.gridPrefixes,
      (p, refOf (cloneRefs st base cfg.gridPrefixes).2 p) ∈
        (cloneRefs st base cfg.gridPrefixes).2 := by
    intro p hp
    exact refOf_mem (by rw [cloneRefs_keys]; exact hp)
  have hbounds : ∀ p ∈ cfg.gridPrefixes,
      st.objs.length ≤ refOf (cloneRefs st base cfg.gridPrefixes).2 p ∧
      refOf (cloneRefs st base cfg.gridPrefixes).2 p <
        (cloneRefs st base cfg.gridPrefixes).1.objs.length ∧
      readObj (cloneRefs st base cfg.gridPrefixes).1
          (refOf (cloneRefs st base cfg.gridPrefixes).2 p) =
        readObj st (refOf base p) := by
    intro p hp
    have := cloneRefs_entries base cfg.gridPrefixes st hv _ (hentry p hp)
    exact ⟨this.2.1, this.2.2.1, this.2.2.2⟩
  have hdist : ∀ p q, p ∈ cfg.gridPrefixes → q ∈ cfg.gridPrefixes → p ≠ q →
      refOf (cloneRefs st base cfg.gridPrefixes).2 p ≠
        refOf (cloneRefs st base cfg.gridPrefixes).2 q := by
    intro p q hp hq hpq
    have hpw := (cloneRefs_refs_pairwise base cfg.gridPrefixes st hv).imp
      (fun hab => Nat.ne_of_lt hab)
    have hne : (p, refOf (cloneRefs st base cfg.gridPrefixes).2 p) ≠
        (q, refOf (cloneRefs st base cfg.gridPrefixes).2 q) := by
      intro hc
      exact hpq (congrArg Prod.fst hc)
    exact hpw.forall (fun a b h => h.symm) (hentry p hp) (hentry q hq) hne
  have hval : ∀ p ∈ cfg.gridPrefixes,
      refOf (cloneRefs st base cfg.gridPrefixes).2 p <
        (cloneRefs st base cfg.gridPrefixes).1.objs.length :=
    fun p hp => (hbounds p hp).2.1
  refine ⟨?_, ?_, ?_, ?_⟩
  · intro i hi
    rw [hb1, applyAll_untouched]
    · exact cloneRefs_preserve base cfg.gridPrefixes st i hi
    · intro p hp
      have := (hbounds p hp).1
      omega
  · intro p hp
    rw [hb1, hb2,
      applyAll_result ops _ cfg.gridPrefixes _ hval hdist hnd p hp,
      (hbounds p hp).2.2]
  · intro p hp
    rw [hb1, hb2]
    rw [show (applyAll ops (cloneRefs st base cfg.gridPrefixes).2
      (cloneRefs st base cfg.gridPrefixes).1 cfg.gridPrefixes).objs.length =
      (cloneRefs st base cfg.gridPrefixes).1.objs.length from
        applyAll_length _ _ _ _]
    exact ⟨(hbounds p hp).1, (hbounds p hp).2.1⟩
  · rw [hb1, applyAll_length, cloneRefs_len]

/-- C9: build_colored_grid_lines never mutates the base line objects (all
objects existing before the call read back unchanged), and invoking it
twice on the same base produces equal colored line lists held in fresh,
mutually independent objects (the second invocation leaves the first
colored copy untouched). -/
theorem build_colored_grid_lines_no_mutation (cfg : Config) (st : LineStore)
    (base : List (String × Nat)) (ops : List (Nat × Nat × String × String))
    (hv : ∀ p ∈ cfg.gridPrefixes, refOf base p < st.objs.length)
    (hnd : cfg.gridPrefixes.Nodup) :
    (∀ i < st.objs.length,
      readObj (build_colored_grid_lines cfg st base ops).1 i = readObj st i) ∧
    (∀ p ∈ cfg.gridPrefixes,
      readObj (build_colored_grid_lines cfg
          (build_colored_grid_lines cfg st base ops).1 base ops).1
        (refOf (build_colored_grid_lines cfg
          (build_colored_grid_lines cfg st base ops).1 base ops).2 p) =
      readObj (build_colored_grid_lines cfg st base ops).1
        (refOf (build_colored_grid_lines cfg st base ops).2 p)) ∧
    (∀ p ∈ cfg.gridPrefixes,
      readObj (build_colored_grid_lines cfg
          (build_colored_grid_lines cfg st base ops).1 base ops).1
        (refOf (build_colored_grid_lines cfg st base ops).2 p) =
      readObj (build_colored_grid_lines cfg st base ops).1
        (refOf (build_colored_grid_lines cfg st base ops).2 p)) := by
  rcases build_spec cfg st base ops hv hnd with ⟨hframe, hvalues, hbounds, hlen⟩
  have hv2 : ∀ p ∈ cfg.gridPrefixes, refOf base p <
      (build_colored_grid_lines cfg st base ops).1.objs.length := by
    intro p hp
    have := hv p hp
    omega
  rcases build_spec cfg (build_colored_grid_lines cfg st base ops).1 base ops
    hv2 hnd with ⟨hframe2, hvalues2, _, _⟩
  refine ⟨hframe, ?_, ?_⟩
  · intro p hp
    rw [hvalues2 p hp, hvalues p hp, hframe _ (hv p hp)]
  · intro p hp
    exact hframe2 _ (hbounds p hp).2

/-- Witness for C9 on a one-grid store holding a single base object. -/
theorem build_colored_grid_lines_no_mutation_witness :
    (∀ i < (⟨[["abcd"]]⟩ : LineStore).objs.length,
      readObj (build_colored_grid_lines ⟨["A"], ["G"]⟩ ⟨[["abcd"]]⟩
        [("A", 0)] [(0, 1, "Z", "A")]).1 i = readObj ⟨[["abcd"]]⟩ i) ∧
    (∀ p ∈ (⟨["A"], ["G"]⟩ : Config).gridPrefixes,
      readObj (build_colored_grid_lines ⟨["A"], ["G"]⟩
          (build_colored_grid_lines ⟨["A"], ["G"]⟩ ⟨[["abcd"]]⟩
            [("A", 0)] [(0, 1, "Z", "A")]).1 [("A", 0)] [(0, 1, "Z", "A")]).1
        (refOf (build_colored_grid_lines ⟨["A"], ["G"]⟩
          (build_colored_grid_lines ⟨["A"], ["G"]⟩ ⟨[["abcd"]]⟩
            [("A", 0)] [(0, 1, "Z", "A")]).1 [("A", 0)] [(0, 1, "Z", "A")]).2 p) =
      readObj (build_colored_grid_lines ⟨["A"], ["G"]⟩ ⟨[["abcd"]]⟩
          [("A", 0)] [(0, 1, "Z", "A")]).1
        (refOf (build_colored_grid_lines ⟨["A"], ["G"]⟩ ⟨[["abcd"]]⟩
          [("A", 0)] [(0, 1, "Z", "A")]).2 p)) ∧
    (∀ p ∈ (⟨["A"], ["G"]⟩ : Config).gridPrefixes,
      readObj (build_colored_grid_lines ⟨["A"], ["G"]⟩
          (build_colored_grid_lines ⟨["A"], ["G"]⟩ ⟨[["abcd"]]⟩
            [("A", 0)] [(0, 1, "Z", "A")]).1 [("A", 0)] [(0, 1, "Z", "A")]).1
        (refOf (build_colored_grid_lines ⟨["A"], ["G"]⟩ ⟨[["abcd"]]⟩
          [("A", 0)] [(0, 1, "Z", "A")]).2 p) =
      readObj (build_colored_grid_lines ⟨["A"], ["G"]⟩ ⟨[["abcd"]]⟩
          [("A", 0)] [(0, 1, "Z", "A")]).1
        (refOf (build_colored_grid_lines ⟨["A"], ["G"]⟩ ⟨[["abcd"]]⟩
          [("A", 0)] [(0, 1, "Z", "A")]).2 p)) :=
  build_colored_grid_lines_no_mutation ⟨["A"], ["G"]⟩ ⟨[["abcd"]]⟩
    [("A", 0)] [(0, 1, "Z", "A")] (by decide) (by decide)

end SwitchTopology
